import Mathlib

/-!
# Artifact resolution of the Xamarin archive step

A shallow embedding of `main.go` and of the vendored
`go-xamarin/builder/utility.go`, with the properties of the specification
stated over it.
-/

namespace XamarinArchive

/-! ## Enumerations of the `constants` package -/

/-- Project kinds of `constants.ProjectType`: the four platform kinds the
whitelist switch names, and `other n` for every further value of the type
(test projects, unknown). -/
inductive ProjectType
  | iOS
  | tvOS
  | macOS
  | android
  | other (n : Nat)
  deriving DecidableEq, Repr

/-- The SDK values of `constants.SDK` compared in the export loop of `main`. -/
inductive SDK
  | unknown
  | android
  | iOS
  | tvOS
  | macOS
  deriving DecidableEq, Repr

/-- The output types of `constants.OutputType`. -/
inductive OutputType
  | unknown
  | xcarchive
  | ipa
  | dsym
  | pkg
  | app
  | apk
  | aab
  deriving DecidableEq, Repr

/-! ## utility.go: whitelist and platform predicates -/

/-- One iteration of the `switch filter` of `isProjectTypeAllowed`: does this
whitelist entry accept the project type. -/
def filterAccepts (projectType : ProjectType) (filter : ProjectType) : Bool :=
  match filter with
  | .iOS => decide (projectType = .iOS)
  | .tvOS => decide (projectType = .tvOS)
  | .macOS => decide (projectType = .macOS)
  | .android => decide (projectType = .android)
  | .other _ => false

/-- The `for _, filter := range projectTypeWhiteList` loop: returns true at
the first accepting entry, false when the loop runs out. -/
def whiteListLoop (projectType : ProjectType) : List ProjectType → Bool
  | [] => false
  | filter :: rest =>
    if filterAccepts projectType filter then true
    else whiteListLoop projectType rest

/-- The function `isProjectTypeAllowed` of utility.go. -/
def isProjectTypeAllowed (projectType : ProjectType)
    (projectTypeWhiteList : List ProjectType) : Bool :=
  if projectTypeWhiteList.length = 0 then true
  else whiteListLoop projectType projectTypeWhiteList

/-- The function `isPlatformAnyCPU` of utility.go: two exact string
comparisons. -/
def isPlatformAnyCPU (platform : String) : Bool :=
  decide (platform = "Any CPU") || decide (platform = "AnyCPU")

/-! ## main.go: the export loop -/

/-- The three export helpers of main.go. -/
inductive ExportKind
  | artifactFile
  | artifactDir
  | zippedArtifactDir
  deriving DecidableEq, Repr

/-- One export call of the loop body: which helper is called and under which
environment key the path is published. -/
structure ExportCall where
  kind : ExportKind
  envKey : String
  deriving DecidableEq, Repr

/-- The `if output.OutputType == t { ... }` blocks: one export call when the
type matches, none otherwise. -/
def whenType (actual expected : OutputType) (kind : ExportKind)
    (envKey : String) : List ExportCall :=
  if actual = expected then [⟨kind, envKey⟩] else []

/-- The body of the inner loop of `main` (lines 267-412) for one output: the
export calls made, in program order, for a project of SDK `projectType` and
an output of type `outputType`. -/
def exportCalls (projectType : SDK) (outputType : OutputType) : List ExportCall :=
  (if projectType = .android then
    whenType outputType .apk .artifactFile "BITRISE_APK_PATH" ++
    whenType outputType .aab .artifactFile "BITRISE_AAB_PATH"
  else []) ++
  (if projectType = .iOS then
    whenType outputType .xcarchive .artifactDir "BITRISE_XCARCHIVE_PATH" ++
    whenType outputType .ipa .artifactFile "BITRISE_IPA_PATH" ++
    whenType outputType .dsym .zippedArtifactDir "BITRISE_DSYM_PATH" ++
    whenType outputType .app .artifactDir "BITRISE_APP_PATH"
  else []) ++
  (if projectType = .tvOS then
    whenType outputType .xcarchive .artifactDir "BITRISE_TVOS_XCARCHIVE_PATH" ++
    whenType outputType .ipa .artifactFile "BITRISE_TVOS_IPA_PATH" ++
    whenType outputType .dsym .zippedArtifactDir "BITRISE_TVOS_DSYM_PATH" ++
    whenType outputType .app .artifactDir "BITRISE_TVOS_APP_PATH"
  else []) ++
  (if projectType = .macOS then
    whenType outputType .xcarchive .artifactDir "BITRISE_MACOS_XCARCHIVE_PATH" ++
    whenType outputType .app .artifactDir "BITRISE_MACOS_APP_PATH" ++
    whenType outputType .pkg .artifactFile "BITRISE_MACOS_PKG_PATH"
  else [])

/-- The fixed set of output types of a platform, as the specification lists
it: Android APK and AAB; iOS and tvOS XCArchive, IPA, DSYM, APP; macOS
XCArchive, APP, PKG. -/
def platformOutputSet : SDK → List OutputType
  | .android => [.apk, .aab]
  | .iOS => [.xcarchive, .ipa, .dsym, .app]
  | .tvOS => [.xcarchive, .ipa, .dsym, .app]
  | .macOS => [.xcarchive, .app, .pkg]
  | .unknown => []

/-! ## A model of Go's `regexp` (leftmost-first, backtracking order)

The patterns of utility.go are built with `fmt.Sprintf` from the assembly
name and compiled with `regexp.MustCompile`.  The model covers literals, `.`,
bracket classes, `*`, `+`, `?`, `|`, groups, named groups and a leading
`(?i)`; anything else of the RE2 syntax is reported as `unsupported`, and a
pattern Go rejects as `invalid`. -/

/-- Regular expressions after parsing.  `fold` is the case-folding flag in
force where the literal or class was parsed. -/
inductive RE
  | empty
  | chr (c : Char) (fold : Bool)
  | any
  | cls (neg : Bool) (ranges : List (Char × Char)) (fold : Bool)
  | cat (a b : RE)
  | alt (a b : RE)
  | star (a : RE)
  | plus (a : RE)
  | opt (a : RE)
  | group (idx : Nat) (a : RE)
  deriving DecidableEq, Repr

/-- The simple case-folding orbit of a character, as far as it meets ASCII:
an ASCII letter folds to its other case, `k` also to the Kelvin sign U+212A
and `s` also to the long s U+017F. -/
def foldOrbit (c : Char) : List Char :=
  let n := c.toNat
  if n = 107 ∨ n = 75 ∨ n = 8490 then [Char.ofNat 107, Char.ofNat 75, Char.ofNat 8490]
  else if n = 115 ∨ n = 83 ∨ n = 383 then [Char.ofNat 115, Char.ofNat 83, Char.ofNat 383]
  else if 97 ≤ n ∧ n ≤ 122 then [c, Char.ofNat (n - 32)]
  else if 65 ≤ n ∧ n ≤ 90 then [c, Char.ofNat (n + 32)]
  else [c]

/-- Does the literal `c` of a pattern match the input character `x`. -/
def chrMatches (c : Char) (fold : Bool) (x : Char) : Bool :=
  if fold then (foldOrbit x).contains c else decide (x = c)

/-- Is `x` inside one of the ranges `lo-hi` of a bracket class. -/
def inRanges (ranges : List (Char × Char)) (x : Char) : Bool :=
  ranges.any (fun r => decide (r.1.toNat ≤ x.toNat) && decide (x.toNat ≤ r.2.toNat))

/-- Does the bracket class match the input character `x`. -/
def clsMatches (neg : Bool) (ranges : List (Char × Char)) (fold : Bool)
    (x : Char) : Bool :=
  let hit := if fold then (foldOrbit x).any (inRanges ranges) else inRanges ranges x
  if neg then !hit else hit

/-- Capture groups recorded so far, most recent first. -/
abbrev Caps := List (Nat × List Char)

/-- A state of the matcher: the input still to read and the captures. -/
abbrev MState := List Char × Caps

/-- Greedy iteration of `step`: every iteration has to consume input; results
are listed longest iteration count first, the empty iteration last. -/
def starLoop (step : List Char → Caps → List MState) :
    Nat → List Char → Caps → List MState
  | 0, s, caps => [(s, caps)]
  | fuel + 1, s, caps =>
    (((step s caps).filter (fun r => decide (r.1.length < s.length))).flatMap
      (fun r => starLoop step fuel r.1 r.2)) ++ [(s, caps)]

/-- All ways to match `r` at the head of the input, in the preference order
of a backtracking matcher (which is the order of Go's leftmost-first
semantics): each result is the remaining input with the captures. -/
def matchRE : RE → List Char → Caps → List MState
  | .empty, s, caps => [(s, caps)]
  | .chr c fold, s, caps =>
    match s with
    | [] => []
    | x :: rest => if chrMatches c fold x then [(rest, caps)] else []
  | .any, s, caps =>
    match s with
    | [] => []
    | x :: rest => if x = '\n' then [] else [(rest, caps)]
  | .cls neg ranges fold, s, caps =>
    match s with
    | [] => []
    | x :: rest => if clsMatches neg ranges fold x then [(rest, caps)] else []
  | .cat a b, s, caps => (matchRE a s caps).flatMap (fun r => matchRE b r.1 r.2)
  | .alt a b, s, caps => matchRE a s caps ++ matchRE b s caps
  | .star a, s, caps => starLoop (matchRE a) s.length s caps
  | .plus a, s, caps =>
    (matchRE a s caps).flatMap (fun r => starLoop (matchRE a) r.1.length r.1 r.2)
  | .opt a, s, caps => matchRE a s caps ++ [(s, caps)]
  | .group idx a, s, caps =>
    (matchRE a s caps).map
      (fun r => (r.1, (idx, s.take (s.length - r.1.length)) :: caps))

/-- The leftmost match: the first start position with a match, and there the
preferred match.  Returns the input from the start position, and the final
matcher state. -/
def findFirst (re : RE) : List Char → Option (List Char × MState)
  | [] => (matchRE re [] []).head?.map (fun r => ([], r))
  | x :: rest =>
    match (matchRE re (x :: rest) []).head? with
    | some r => some (x :: rest, r)
    | none => findFirst re rest

/-- The text of capture group `idx`, empty when the group did not take part. -/
def capText (caps : Caps) (idx : Nat) : String :=
  match caps.find? (fun c => c.1 = idx) with
  | some c => String.mk c.2
  | none => ""

/-- The method `FindString`: the text of the leftmost match, or the empty
string when there is no match. -/
def findString (re : RE) (s : String) : String :=
  match findFirst re s.data with
  | some (start, r) => String.mk (start.take (start.length - r.1.length))
  | none => ""

/-- The method `FindStringSubmatch` for a pattern with `n` capture groups:
the match followed by the `n` group texts, or the empty slice. -/
def findStringSubmatch (re : RE) (n : Nat) (s : String) : List String :=
  match findFirst re s.data with
  | some (start, r) =>
    String.mk (start.take (start.length - r.1.length)) ::
      (List.range n).map (fun i => capText r.2 (i + 1))
  | none => []

/-! ### Parsing -/

/-- Why a pattern has no compiled form in the model: `invalid` is a syntax
error of Go's parser (`regexp.MustCompile` panics), `unsupported` is syntax
the model does not cover. -/
inductive RegexErr
  | invalid
  | unsupported
  deriving DecidableEq, Repr

/-- A frame of the parser stack: the alternatives already closed by `|` and
the items of the current concatenation (both most recent first), whether the
last item is a repetition, and the capture index of the group the frame
belongs to (none at top level). -/
structure Frame where
  alts : List RE
  items : List RE
  lastRepeat : Bool
  group : Option Nat
  deriving Repr

/-- Concatenation of a list of items. -/
def mkCat : List RE → RE
  | [] => .empty
  | [a] => a
  | a :: rest => .cat a (mkCat rest)

/-- Alternation of a non-empty list of alternatives, first one preferred. -/
def mkAlt : List RE → RE
  | [] => .empty
  | [a] => a
  | a :: rest => .alt a (mkAlt rest)

/-- The expression of a finished frame. -/
def closeFrame (f : Frame) : RE :=
  mkAlt ((mkCat f.items.reverse :: f.alts).reverse)

/-- Can the expression match the empty string. -/
def nullable : RE → Bool
  | .empty => true
  | .chr _ _ => false
  | .any => false
  | .cls _ _ _ => false
  | .cat a b => nullable a && nullable b
  | .alt a b => nullable a || nullable b
  | .star _ => true
  | .plus a => nullable a
  | .opt _ => true
  | .group _ a => nullable a

/-- Characters allowed in a capture name. -/
def isWordChar (c : Char) : Bool :=
  c = '_' || c.isAlphanum

/-- The items of a bracket class after `[` and an optional `^`, up to the
closing `]`: single characters and ranges `lo-hi`.  `first` is true before
the first item, where `]` is a literal. -/
def classLoop (fold : Bool) :
    Nat → Bool → List Char → List (Char × Char) →
      Except RegexErr (List (Char × Char) × List Char)
  | 0, _, _, _ => .error .unsupported
  | _ + 1, _, [], _ => .error .invalid
  | fuel + 1, first, c :: t, acc =>
    if c = ']' ∧ first = false then .ok (acc.reverse, t)
    else if c = '\\' then .error .unsupported
    else if c = '[' ∧ t.head? = some ':' then .error .unsupported
    else
      match t with
      | '-' :: h :: t2 =>
        if h = ']' then
          if fold ∧ 128 ≤ c.toNat then .error .unsupported
          else classLoop fold fuel false t ((c, c) :: acc)
        else if h = '\\' then .error .unsupported
        else if h.toNat < c.toNat then .error .invalid
        else if fold ∧ 128 ≤ h.toNat then .error .unsupported
        else classLoop fold fuel false t2 ((c, h) :: acc)
      | _ =>
        if fold ∧ 128 ≤ c.toNat then .error .unsupported
        else classLoop fold fuel false t ((c, c) :: acc)

/-- A bracket class, the input starting after the `[`. -/
def parseClass (fold : Bool) (t : List Char) : Except RegexErr (RE × List Char) :=
  match t with
  | '^' :: t2 =>
    (classLoop fold (t2.length + 1) true t2 []).map (fun r => (.cls true r.1 fold, r.2))
  | _ =>
    (classLoop fold (t.length + 1) true t []).map (fun r => (.cls false r.1 fold, r.2))

/-- Appends an item to the current concatenation of a frame. -/
def Frame.push (f : Frame) (re : RE) : Frame :=
  { f with items := re :: f.items, lastRepeat := false }

/-- The operators `*`, `+`, `?` applied to the last item of the frame. -/
def applyRepeat (op : Char) (next : Option Char) (f : Frame) : Except RegexErr Frame :=
  if f.lastRepeat then .error .invalid
  else
    match f.items with
    | [] => .error .invalid
    | a :: rest =>
      if next = some '?' then .error .unsupported
      else if nullable a then .error .unsupported
      else
        let rep := if op = '*' then RE.star a else if op = '+' then RE.plus a else RE.opt a
        .ok { f with items := rep :: rest, lastRepeat := true }

/-- The parser loop: one pass over the pattern with a stack of open groups.
`ncap` counts the capture groups opened so far, `names` are their names. -/
def parseLoop (fold : Bool) :
    Nat → List Char → List Frame → Frame → Nat → List (List Char) →
      Except RegexErr (RE × Nat)
  | 0, _, _, _, _, _ => .error .unsupported
  | _ + 1, [], stack, cur, ncap, _ =>
    if stack.isEmpty then .ok (closeFrame cur, ncap) else .error .invalid
  | fuel + 1, c :: t, stack, cur, ncap, names =>
    if c = '(' then
      if 900 ≤ stack.length then .error .unsupported
      else
        match t with
        | '?' :: 'P' :: '<' :: t2 =>
          let name := t2.takeWhile (fun x => x ≠ '>')
          let t3 := t2.drop name.length
          match t3 with
          | [] => .error .invalid
          | _ :: t4 =>
            if name.isEmpty ∨ ¬ name.all isWordChar then .error .invalid
            else if name ∈ names then .error .unsupported
            else parseLoop fold fuel t4 (cur :: stack) ⟨[], [], false, some (ncap + 1)⟩
                  (ncap + 1) (name :: names)
        | '?' :: _ => .error .unsupported
        | _ => parseLoop fold fuel t (cur :: stack) ⟨[], [], false, some (ncap + 1)⟩
                  (ncap + 1) names
    else if c = ')' then
      match stack with
      | [] => .error .invalid
      | parent :: stack2 =>
        parseLoop fold fuel t stack2
          (parent.push (.group (cur.group.getD 0) (closeFrame cur))) ncap names
    else if c = '|' then
      parseLoop fold fuel t stack
        { cur with alts := mkCat cur.items.reverse :: cur.alts, items := [],
                   lastRepeat := false } ncap names
    else if c = '*' ∨ c = '+' ∨ c = '?' then
      match applyRepeat c t.head? cur with
      | .error e => .error e
      | .ok cur2 => parseLoop fold fuel t stack cur2 ncap names
    else if c = '.' then parseLoop fold fuel t stack (cur.push .any) ncap names
    else if c = '[' then
      match parseClass fold t with
      | .error e => .error e
      | .ok (re, t2) => parseLoop fold fuel t2 stack (cur.push re) ncap names
    else if c = '\\' ∨ c = '{' ∨ c = '^' ∨ c = '$' then .error .unsupported
    else if fold ∧ 128 ≤ c.toNat then .error .unsupported
    else parseLoop fold fuel t stack (cur.push (.chr c fold)) ncap names

/-- The function `regexp.Compile`: the expression and its number of capture
groups.  A leading `(?i)` turns case folding on for the whole pattern.
Patterns near the size and nesting limits of Go's parser (more than 100000
characters, groups nested 900 deep) are left outside the model. -/
def regexpCompile (pattern : String) : Except RegexErr (RE × Nat) :=
  if 100000 < pattern.data.length then .error .unsupported
  else
    match pattern.data with
    | '(' :: '?' :: 'i' :: ')' :: rest =>
      parseLoop true (rest.length + 1) rest [] ⟨[], [], false, none⟩ 0 []
    | cs => parseLoop false (cs.length + 1) cs [] ⟨[], [], false, none⟩ 0 []

/-! ## Models of `path/filepath`, `strconv` and `time` (Unix paths, UTC) -/

/-- The components of a path between its slashes. -/
def splitSlash : List Char → List (List Char)
  | [] => [[]]
  | c :: rest =>
    if c = '/' then [] :: splitSlash rest
    else
      match splitSlash rest with
      | [] => [[c]]
      | comp :: comps => (c :: comp) :: comps

/-- One step of `filepath.Clean` over the components, the kept ones most
recent first: empty and `.` components are dropped, `..` removes the
component before it, is dropped at the root and is kept otherwise. -/
def cleanStep (rooted : Bool) (kept : List (List Char)) (comp : List Char) :
    List (List Char) :=
  if comp = [] ∨ comp = ['.'] then kept
  else if comp = ['.', '.'] then
    match kept with
    | [] => if rooted then [] else [comp]
    | top :: rest => if top = ['.', '.'] then comp :: kept else rest
  else comp :: kept

/-- The function `filepath.Clean`. -/
def filepathClean (path : List Char) : List Char :=
  let rooted := decide (path.head? = some '/')
  let kept := ((splitSlash path).foldl (cleanStep rooted) []).reverse
  let body := List.intercalate ['/'] kept
  let out := if rooted then '/' :: body else body
  if out = [] then ['.'] else out

/-- Drops the characters after the last slash: `path[:i+1]` of `filepath.Dir`. -/
def upToLastSlash (path : List Char) : List Char :=
  (path.reverse.dropWhile (fun c => c ≠ '/')).reverse

/-- The function `filepath.Dir`. -/
def filepathDir (path : String) : String :=
  String.mk (filepathClean (upToLastSlash path.data))

/-- The function `filepath.Base`. -/
def filepathBase (path : String) : String :=
  if path.data = [] then "."
  else
    let stripped := (path.data.reverse.dropWhile (fun c => c = '/')).reverse
    let last := (stripped.reverse.takeWhile (fun c => c ≠ '/')).reverse
    if last = [] then "/" else String.mk last

/-- The value of a decimal digit. -/
def digitVal (c : Char) : Nat := c.toNat - 48

/-- The value of a string of decimal digits. -/
def digitsVal (cs : List Char) : Nat :=
  cs.foldl (fun acc c => acc * 10 + digitVal c) 0

/-- The function `strconv.Atoi` on a 64-bit platform: an optional sign and at
least one decimal digit, nothing else; a value outside the `int` range is an
error. -/
def strconvAtoi (s : String) : Option Int :=
  let neg := decide (s.data.head? = some '-')
  let body := if s.data.head? = some '+' ∨ s.data.head? = some '-' then s.data.tail else s.data
  if body = [] ∨ ¬ body.all Char.isDigit then none
  else
    let v := digitsVal body
    if neg then (if v ≤ 2 ^ 63 then some (- (v : Int)) else none)
    else (if v < 2 ^ 63 then some (v : Int) else none)

/-- The elements of a `time` layout that the layouts of utility.go use. -/
inductive Std
  | longYear
  | year
  | zeroMonth
  | zeroDay
  | hour
  | hour12
  | zeroMinute
  | zeroSecond
  | pm
  deriving DecidableEq, Repr

/-- A chunk of a layout as `nextStdChunk` cuts it: the literal text before a
layout element, and the element. -/
structure Chunk where
  lit : List Char
  std : Std
  deriving Repr

/-- The layout `"2006-01-02"`. -/
def layoutDate : List Chunk :=
  [⟨[], .longYear⟩, ⟨['-'], .zeroMonth⟩, ⟨['-'], .zeroDay⟩]

/-- The layout `"01-02-06 3.04 PM"`. -/
def layoutArchiveName : List Chunk :=
  [⟨[], .zeroMonth⟩, ⟨['-'], .zeroDay⟩, ⟨['-'], .year⟩, ⟨[' '], .hour12⟩,
   ⟨['.'], .zeroMinute⟩, ⟨[' '], .pm⟩]

/-- The layout `"2006-01-02 15-04-05"`. -/
def layoutIpaDir : List Chunk :=
  [⟨[], .longYear⟩, ⟨['-'], .zeroMonth⟩, ⟨['-'], .zeroDay⟩, ⟨[' '], .hour⟩,
   ⟨['-'], .zeroMinute⟩, ⟨['-'], .zeroSecond⟩]

/-- A parsed time in UTC, by its calendar fields. -/
structure GoTime where
  year : Nat
  month : Nat
  day : Nat
  hour : Nat
  min : Nat
  sec : Nat
  nsec : Nat
  deriving DecidableEq, Repr

/-- The fields of a time, most significant first. -/
def GoTime.fields (t : GoTime) : List Nat :=
  [t.year, t.month, t.day, t.hour, t.min, t.sec, t.nsec]

/-- Strict lexicographic "greater than" on lists of numbers. -/
def lexGt : List Nat → List Nat → Bool
  | a :: as, b :: bs => if a > b then true else if a < b then false else lexGt as bs
  | _, _ => false

/-- The method `Time.After`: on normalised UTC fields the later instant is the
lexicographically greater field list. -/
def GoTime.after (t u : GoTime) : Bool := lexGt t.fields u.fields

/-- The method `Time.Equal`. -/
def GoTime.equal (t u : GoTime) : Bool := decide (t = u)

/-- The state of `time.Parse` while it walks the layout. -/
structure ParseState where
  year : Nat
  month : Nat
  day : Nat
  hour : Nat
  min : Nat
  sec : Nat
  nsec : Nat
  pmSet : Bool
  amSet : Bool
  deriving Repr

/-- The function `cutspace` of the `time` package. -/
def cutspace (s : List Char) : List Char := s.dropWhile (fun c => c = ' ')

/-- The function `skip` of the `time` package: the value has to start with
the literal text; a space of the literal stands for any run of spaces, also
an empty one at the end of the value. -/
def skip : Nat → List Char → List Char → Option (List Char)
  | 0, _, _ => none
  | _ + 1, value, [] => some value
  | fuel + 1, value, p :: ps =>
    if p = ' ' then
      match value with
      | [] => skip fuel (cutspace value) (cutspace (p :: ps))
      | v :: _ =>
        if v ≠ ' ' then none
        else skip fuel (cutspace value) (cutspace (p :: ps))
    else
      match value with
      | [] => none
      | v :: vs => if v = p then skip fuel vs ps else none

/-- The function `getnum` of the `time` package: one or two digits, exactly
two when `fixed`. -/
def getnum (s : List Char) (fixed : Bool) : Option (Nat × List Char) :=
  match s with
  | [] => none
  | a :: rest =>
    if ¬ a.isDigit then none
    else
      match rest with
      | b :: rest2 =>
        if b.isDigit then some (digitVal a * 10 + digitVal b, rest2)
        else if fixed then none else some (digitVal a, rest)
      | [] => if fixed then none else some (digitVal a, rest)

/-- The function `atoi` of the `time` package: an optional sign, then digits
only. -/
def timeAtoi (s : List Char) : Option Int :=
  let neg := decide (s.head? = some '-')
  let body := if s.head? = some '+' ∨ s.head? = some '-' then s.tail else s
  if body.all Char.isDigit then
    some (if neg then - (digitsVal body : Int) else (digitsVal body : Int))
  else none

/-- The function `daysIn` of the `time` package. -/
def daysIn (month year : Nat) : Nat :=
  if month = 2 then
    (if year % 4 = 0 ∧ (year % 100 ≠ 0 ∨ year % 400 = 0) then 29 else 28)
  else if month = 4 ∨ month = 6 ∨ month = 9 ∨ month = 11 then 30
  else 31

/-- A fractional second after the seconds field when the layout has none:
`.` or `,` and digits, of which nine count. -/
def parseFraction (value : List Char) : Nat × List Char :=
  match value with
  | c :: d :: rest =>
    if (c = '.' ∨ c = ',') ∧ d.isDigit then
      let digits := (d :: rest).takeWhile Char.isDigit
      let kept := digits.take 9
      (digitsVal kept * 10 ^ (9 - kept.length), (d :: rest).drop digits.length)
    else (0, value)
  | _ => (0, value)

/-- One layout element of `time.Parse`, read at the head of the value. -/
def parseStd (std : Std) (value : List Char) (st : ParseState) :
    Option (List Char × ParseState) :=
  match std with
  | .longYear =>
    if value.length < 4 ∨ ¬ (value.headD ' ').isDigit then none
    else
      match timeAtoi (value.take 4) with
      | some y => some (value.drop 4, { st with year := y.toNat })
      | none => none
  | .year =>
    if value.length < 2 then none
    else
      match timeAtoi (value.take 2) with
      | some y =>
        some (value.drop 2,
          { st with year := (if y ≥ 69 then y + 1900 else y + 2000).toNat })
      | none => none
  | .zeroMonth =>
    match getnum value true with
    | some (m, rest) => if m = 0 ∨ 12 < m then none else some (rest, { st with month := m })
    | none => none
  | .zeroDay =>
    match getnum value true with
    | some (d, rest) => some (rest, { st with day := d })
    | none => none
  | .hour =>
    match getnum value false with
    | some (h, rest) => if 24 ≤ h then none else some (rest, { st with hour := h })
    | none => none
  | .hour12 =>
    match getnum value false with
    | some (h, rest) => if 12 < h then none else some (rest, { st with hour := h })
    | none => none
  | .zeroMinute =>
    match getnum value true with
    | some (m, rest) => if 60 ≤ m then none else some (rest, { st with min := m })
    | none => none
  | .zeroSecond =>
    match getnum value true with
    | some (sec, rest) =>
      if 60 ≤ sec then none
      else
        let frac := parseFraction rest
        some (frac.2, { st with sec := sec, nsec := frac.1 })
    | none => none
  | .pm =>
    if value.length < 2 then none
    else if value.take 2 = ['P', 'M'] then some (value.drop 2, { st with pmSet := true })
    else if value.take 2 = ['A', 'M'] then some (value.drop 2, { st with amSet := true })
    else none

/-- The loop of `time.Parse` over the chunks of the layout. -/
def parseChunks : List Chunk → List Char → ParseState → Option (List Char × ParseState)
  | [], value, st => some (value, st)
  | chunk :: rest, value, st =>
    match skip (chunk.lit.length + 1) value chunk.lit with
    | none => none
    | some value2 =>
      match parseStd chunk.std value2 st with
      | none => none
      | some (value3, st2) => parseChunks rest value3 st2

/-- The function `time.Parse` for a layout that ends in a layout element:
no text may be left over, the hour is adjusted for AM and PM, and the day has
to exist in its month.  `none` is a parse error. -/
def timeParse (layout : List Chunk) (value : String) : Option GoTime :=
  match parseChunks layout value.data ⟨0, 1, 1, 0, 0, 0, 0, false, false⟩ with
  | none => none
  | some (rest, st) =>
    if rest ≠ [] then none
    else
      let hour :=
        if st.pmSet ∧ st.hour < 12 then st.hour + 12
        else if st.amSet ∧ st.hour = 12 then 0
        else st.hour
      if st.day < 1 ∨ daysIn st.month st.year < st.day then none
      else some ⟨st.year, st.month, st.day, hour, st.min, st.sec, st.nsec⟩

/-! ## utility.go: the comparators `ByArchiveDate` and `ByIpaDate` -/

/-- How a call ends: it returns a value, the Go runtime panics, or it
compiles a pattern that lies outside the model of `regexp`. -/
inductive Outcome (α : Type)
  | ok (a : α)
  | panic
  | unmodelled
  deriving DecidableEq, Repr

/-- The function `regexp.MustCompile` followed by the rest of the caller. -/
def mustCompile {α : Type} (pattern : String) (k : RE → Nat → Outcome α) : Outcome α :=
  match regexpCompile pattern with
  | .ok (re, n) => k re n
  | .error .invalid => .panic
  | .error .unsupported => .unmodelled

/-- The pattern `datePattern` of `ByArchiveDate.Less`. -/
def archiveDatePattern : String :=
  ".* (?P<date>[0-9-]+ [0-9.]+ PM|AM)[ ]*(?P<count>|[0-9]+).xcarchive"

/-- The pattern `datePattern` of `ByIpaDate.Less`. -/
def ipaDatePattern : String :=
  ".* (?P<date>[0-9-]+-[0-9-]+-[0-9-]+ [0-9-]+-[0-9-]+-[0-9-]+)[ ]*(?P<count>[0-9]+|)"

/-- The first loop of `ByArchiveDate.Less` (lines 198-209): the dates of the
parent directory names, or `none` where the loop returns false. -/
def archiveDirDates : List String → List GoTime → Option (List GoTime)
  | [], dirDates => some dirDates
  | pth :: rest, dirDates =>
    match timeParse layoutDate (filepathBase (filepathDir pth)) with
    | none => none
    | some date => archiveDirDates rest (dirDates ++ [date])

/-- The body shared by the second loop of `ByArchiveDate.Less` (lines
227-248) and the loop of `ByIpaDate.Less` (lines 326-347) for one name:
nothing is appended when the pattern does not match; `none` is the
`return false` after a logged parse error. -/
def dateCountStep (re : RE) (n : Nat) (layout : List Chunk) (name : String)
    (dates : List GoTime) (counts : List Int) : Option (List GoTime × List Int) :=
  let mtch := findStringSubmatch re n name
  if mtch.length = 3 then
    match timeParse layout (mtch.getD 1 "") with
    | none => none
    | some date =>
      if mtch.getD 2 "" ≠ "" then
        match strconvAtoi (mtch.getD 2 "") with
        | none => none
        | some count => some (dates ++ [date], counts ++ [count])
      else some (dates ++ [date], counts ++ [0])
  else some (dates, counts)

/-- The second loop of `ByArchiveDate.Less` over the two paths. -/
def archiveBaseLoop (re : RE) (n : Nat) :
    List String → List GoTime → List Int → Option (List GoTime × List Int)
  | [], baseDates, baseCounts => some (baseDates, baseCounts)
  | pth :: rest, baseDates, baseCounts =>
    match dateCountStep re n layoutArchiveName (filepathBase pth) baseDates baseCounts with
    | none => none
    | some (d, c) => archiveBaseLoop re n rest d c

/-- The loop of `ByIpaDate.Less` over the two paths. -/
def ipaDirLoop (re : RE) (n : Nat) :
    List String → List GoTime → List Int → Option (List GoTime × List Int)
  | [], dirDates, dirDateCounts => some (dirDates, dirDateCounts)
  | pth :: rest, dirDates, dirDateCounts =>
    match dateCountStep re n layoutIpaDir (filepathBase (filepathDir pth))
        dirDates dirDateCounts with
    | none => none
    | some (d, c) => ipaDirLoop re n rest d c

/-- The closing comparisons of both comparators (lines 251-259 and 350-358):
the slices are indexed at 0 and 1, which panics when they are shorter. -/
def compareDatesCounts (dates : List GoTime) (counts : List Int) : Outcome Bool :=
  match dates[0]?, dates[1]? with
  | some d0, some d1 =>
    if d0.after d1 then .ok true
    else if d0.equal d1 then
      match counts[0]?, counts[1]? with
      | some c0, some c1 => if c0 > c1 then .ok true else .ok false
      | _, _ => .panic
    else .ok false
  | _, _ => .panic

/-- The method `ByArchiveDate.Less` on the paths `d[i]` and `d[j]`. -/
def archiveLess (pi pj : String) : Outcome Bool :=
  match archiveDirDates [pi, pj] [] with
  | none => .ok false
  | some dirDates =>
    match dirDates[0]?, dirDates[1]? with
    | some d0, some d1 =>
      if d0.after d1 then .ok true
      else
        mustCompile archiveDatePattern (fun re n =>
          match archiveBaseLoop re n [pi, pj] [] [] with
          | none => .ok false
          | some (baseDates, baseCounts) => compareDatesCounts baseDates baseCounts)
    | _, _ => .panic

/-- The method `ByIpaDate.Less` on the paths `d[i]` and `d[j]`. -/
def ipaLess (pi pj : String) : Outcome Bool :=
  mustCompile ipaDatePattern (fun re n =>
    match ipaDirLoop re n [pi, pj] [] [] with
    | none => .ok false
    | some (dirDates, dirDateCounts) => compareDatesCounts dirDates dirDateCounts)

/-! ## `sort.Sort` on short slices: insertion sort -/

/-- The inner loop of `insertionSort`: `x` moves left past every element it
is less than.  The sorted part is given nearest neighbour first. -/
def insertLeft (less : String → String → Outcome Bool) (x : String) :
    List String → Outcome (List String)
  | [] => .ok [x]
  | p :: ps =>
    match less x p with
    | .ok true =>
      match insertLeft less x ps with
      | .ok r => .ok (p :: r)
      | .panic => .panic
      | .unmodelled => .unmodelled
    | .ok false => .ok (x :: p :: ps)
    | .panic => .panic
    | .unmodelled => .unmodelled

/-- The outer loop of `insertionSort`; `done` is the sorted part, reversed. -/
def insertionLoop (less : String → String → Outcome Bool) :
    List String → List String → Outcome (List String)
  | [], done => .ok done.reverse
  | x :: rest, done =>
    match insertLeft less x done with
    | .ok done2 => insertionLoop less rest done2
    | .panic => .panic
    | .unmodelled => .unmodelled

/-- The function `insertionSort` of the package `sort` on a whole slice. -/
def insertionSort (less : String → String → Outcome Bool) (data : List String) :
    Outcome (List String) :=
  insertionLoop less data []

/-- The function `sort.Sort` where every Go release runs `insertionSort` and
nothing else: on slices of at most six elements.  Longer slices go through
quicksort or pattern-defeating quicksort, depending on the release, and are
left outside this model; the theorems about longer candidate lists take
`sort.Sort` as a parameter with its contract. -/
def sortSort (less : String → String → Outcome Bool) (data : List String) :
    Outcome (List String) :=
  if data.length ≤ 6 then insertionSort less data else .unmodelled

/-! ## utility.go: the resolvers

The file system is outside the program: every resolver takes the result of
its `filepath.Glob` call, the candidate paths in glob order or the error of
a malformed pattern, as an argument. -/

/-- What a resolver returns: the path and the error (`none` is `nil`). -/
abbrev Resolved := String × Option String

/-- The filter loops `for _, x := range xs { if match := re.FindString(x);
match != "" { filtered = append(filtered, x) } }`. -/
def filterByPattern (re : RE) : List String → List String
  | [] => []
  | x :: rest =>
    if findString re x ≠ "" then x :: filterByPattern re rest
    else filterByPattern re rest

/-- The closing `if len(filtered) == 0 { return "", nil }; return
filtered[0], nil` of the resolvers without sorting. -/
def firstOrEmpty (filtered : List String) : Resolved :=
  match filtered with
  | [] => ("", none)
  | x :: _ => (x, none)

/-- The function `exportApk` of utility.go, `glob` being the result of
`filepath.Glob(filepath.Join(outputDir, "*.apk"))`. -/
def exportApk (glob : Except String (List String)) (assemblyName : String) :
    Outcome Resolved :=
  match glob with
  | .error err => .ok ("", some ("failed to find apk, error: " ++ err))
  | .ok apks =>
    mustCompile ("(?i)" ++ assemblyName ++ ".*signed.apk") (fun re _ =>
      let filteredApks := filterByPattern re apks
      if filteredApks.length = 0 then
        mustCompile (assemblyName ++ ".apk") (fun re2 _ =>
          let filteredApks2 := filteredApks ++ filterByPattern re2 apks
          if filteredApks2.length = 0 then .ok (firstOrEmpty apks)
          else .ok (firstOrEmpty filteredApks2))
      else .ok (firstOrEmpty filteredApks))

/-- The common shape of `exportAppDSYM`, `exportPKG` and `exportApp`: an
empty glob returns at once, otherwise the candidates are filtered by the
pattern, all of them are kept when none matches, and the first is returned. -/
def exportFirst (what pattern : String) (glob : Except String (List String))
    (rePattern : String) : Outcome Resolved :=
  match glob with
  | .error err =>
    .ok ("", some ("failed to find " ++ what ++ " with pattern (" ++ pattern ++
      "), error: " ++ err))
  | .ok found =>
    if found.length = 0 then .ok ("", none)
    else
      mustCompile rePattern (fun re _ =>
        let filtered := filterByPattern re found
        let filtered2 := if filtered.length = 0 then found else filtered
        .ok (firstOrEmpty filtered2))

/-- The function `exportAppDSYM` of utility.go; `pattern` is the glob
pattern `filepath.Join(outputDir, "*.app.dSYM")`. -/
def exportAppDSYM (pattern : String) (glob : Except String (List String))
    (assemblyName : String) : Outcome Resolved :=
  exportFirst "dsym" pattern glob (assemblyName ++ ".app.dSYM")

/-- The function `exportPKG` of utility.go. -/
def exportPKG (pattern : String) (glob : Except String (List String))
    (assemblyName : String) : Outcome Resolved :=
  exportFirst "pkg" pattern glob (assemblyName ++ ".*.pkg")

/-- The function `exportApp` of utility.go. -/
def exportApp (pattern : String) (glob : Except String (List String))
    (assemblyName : String) : Outcome Resolved :=
  exportFirst "app" pattern glob (assemblyName ++ ".app")

/-- The common shape of `exportLatestXCArchive` and `exportLatestIpa`: as
`exportFirst`, with the kept candidates sorted before the first is taken. -/
def exportLatest (what pattern : String) (less : String → String → Outcome Bool)
    (glob : Except String (List String)) (rePattern : String) : Outcome Resolved :=
  match glob with
  | .error err =>
    .ok ("", some ("failed to find " ++ what ++ " with pattern (" ++ pattern ++
      "), error: " ++ err))
  | .ok found =>
    if found.length = 0 then .ok ("", none)
    else
      mustCompile rePattern (fun re _ =>
        let filtered := filterByPattern re found
        let filtered2 := if filtered.length = 0 then found else filtered
        if filtered2.length = 0 then .ok ("", none)
        else
          match sortSort less filtered2 with
          | .ok sorted => .ok (firstOrEmpty sorted)
          | .panic => .panic
          | .unmodelled => .unmodelled)

/-- The function `exportLatestXCArchive` of utility.go; `pattern` is the glob
pattern `filepath.Join(outputDir, "*", "*.xcarchive")`. -/
def exportLatestXCArchive (pattern : String) (glob : Except String (List String))
    (assemblyName : String) : Outcome Resolved :=
  exportLatest "xcarchive" pattern archiveLess glob (".*/" ++ assemblyName ++ ".xcarchive")

/-- The function `exportLatestIpa` of utility.go; `pattern` is the glob
pattern `filepath.Join(outputDir, "*", "*.ipa")`. -/
def exportLatestIpa (pattern : String) (glob : Except String (List String))
    (assemblyName : String) : Outcome Resolved :=
  exportLatest "ipa" pattern ipaLess glob
    (assemblyName ++ " .*/" ++ assemblyName ++ ".ipa")

/-! ## Specification-side definitions -/

/-- The four platform kinds of the whitelist. -/
def platformKinds : List ProjectType := [.iOS, .tvOS, .macOS, .android]

/-- The reading of the specification for `isPlatformAnyCPU`: the platform
equals `Any CPU` or `AnyCPU` when letter case is ignored. -/
def specAnyCPUIgnoringCase (platform : String) : Bool :=
  decide (platform.data.map Char.toLower = "any cpu".data) ||
  decide (platform.data.map Char.toLower = "anycpu".data)

/-- The test of the filter loops on one candidate: `FindString` returns a
non-empty match. -/
def matchesPattern (re : RE) (candidate : String) : Bool :=
  decide (findString re candidate ≠ "")

/-- The results of a greedy `+` over a one-character test `p`, computed along
the input: longest run first. -/
def plusRun (p : Char → Bool) : List Char → Caps → List MState
  | [], _ => []
  | x :: rest, caps =>
    if p x then plusRun p rest caps ++ [(rest, caps)] else []

/-- The results of a greedy `*` over a one-character test `p`. -/
def starRun (p : Char → Bool) (s : List Char) (caps : Caps) : List MState :=
  plusRun p s caps ++ [(s, caps)]

/-- The matcher of a one-character expression with test `p`. -/
def atomStep (p : Char → Bool) (s : List Char) (caps : Caps) : List MState :=
  match s with
  | [] => []
  | x :: rest => if p x then [(rest, caps)] else []

/-- The class `[0-9-]`. -/
def ddCls : RE := .cls false [('0', '9'), ('-', '-')] false

/-- The expression `[0-9-]+-[0-9-]+-[0-9-]+ [0-9-]+-[0-9-]+-[0-9-]+` of the
group `date` of `ipaDatePattern`. -/
def stampRE : RE :=
  .cat (.plus ddCls) (.cat (.chr '-' false) (.cat (.plus ddCls) (.cat (.chr '-' false)
    (.cat (.plus ddCls) (.cat (.chr ' ' false) (.cat (.plus ddCls) (.cat (.chr '-' false)
      (.cat (.plus ddCls) (.cat (.chr '-' false) (.plus ddCls))))))))))

/-- The end `[ ]*(?P<count>[0-9]+|)` of `ipaDatePattern`. -/
def ipaTailRE : RE :=
  .cat (.star (.cls false [(' ', ' ')] false))
    (.group 2 (.alt (.plus (.cls false [('0', '9')] false)) .empty))

/-- The pattern `ipaDatePattern` behind its leading `.*`. -/
def ipaBodyRE : RE := .cat (.chr ' ' false) (.cat (.group 1 stampRE) ipaTailRE)

/-- The compiled form of `ipaDatePattern`. -/
def ipaDateRE : RE := .cat (.star .any) ipaBodyRE

/-- The optional suffix of a directory name: nothing, or a space and the
digits. -/
def sufText (ds : List Char) : List Char := if ds = [] then [] else ' ' :: ds

/-- The decimal digit character of `n % 10`. -/
def digitChar (n : Nat) : Char :=
  match n % 10 with
  | 0 => '0'
  | 1 => '1'
  | 2 => '2'
  | 3 => '3'
  | 4 => '4'
  | 5 => '5'
  | 6 => '6'
  | 7 => '7'
  | 8 => '8'
  | _ => '9'

/-- Two decimal digits, zero padded. -/
def pad2 (n : Nat) : List Char := [digitChar (n / 10), digitChar n]

/-- Four decimal digits, zero padded. -/
def pad4 (n : Nat) : List Char :=
  [digitChar (n / 1000), digitChar (n / 100), digitChar (n / 10), digitChar n]

/-- The text `YYYY-MM-DD HH-MM-SS` of a time stamp. -/
def stampText (year month day hour min sec : Nat) : List Char :=
  pad4 year ++ '-' :: pad2 month ++ '-' :: pad2 day ++ ' ' :: pad2 hour ++
    '-' :: pad2 min ++ '-' :: pad2 sec

/-- A directory name of the form `<name> YYYY-MM-DD HH-MM-SS`, optionally
followed by a space and a decimal number: the name, the fields of the time
stamp and the digits of the number (none when the number is absent). -/
structure IpaDir where
  name : String
  year : Nat
  month : Nat
  day : Nat
  hour : Nat
  min : Nat
  sec : Nat
  suffix : List Char
  deriving Repr

/-- The directory name as text. -/
def IpaDir.text (d : IpaDir) : String :=
  String.mk (d.name.data ++ ' ' ::
    (stampText d.year d.month d.day d.hour d.min d.sec ++ sufText d.suffix))

/-- The name has no line break, the time stamp is a calendar date and a time
of day, and the suffix is a decimal number below `2 ^ 63`. -/
def IpaDir.wellFormed (d : IpaDir) : Bool :=
  d.name.data.all (fun c => decide (c ≠ '\n')) &&
  decide (d.year < 10000) && decide (1 ≤ d.month) && decide (d.month ≤ 12) &&
  decide (1 ≤ d.day) && decide (d.day ≤ daysIn d.month d.year) &&
  decide (d.hour < 24) && decide (d.min < 60) && decide (d.sec < 60) &&
  d.suffix.all Char.isDigit && decide (digitsVal d.suffix < 2 ^ 63)

/-- The (time stamp, suffix) pair of a directory name, most significant field
first; an absent suffix counts as 0. -/
def IpaDir.key (d : IpaDir) : List Nat :=
  [d.year, d.month, d.day, d.hour, d.min, d.sec, digitsVal d.suffix]

/-- The function `unicode.ToLower`.  ASCII letters are lowered by the
function itself; `table` stands for the lower-case mapping of the Unicode
tables for the characters above ASCII, which are not part of the
repository. -/
def unicodeToLower (table : Char → Char) (c : Char) : Char :=
  if c.toNat ≤ 127 then
    (if 65 ≤ c.toNat ∧ c.toNat ≤ 90 then Char.ofNat (c.toNat + 32) else c)
  else table c

/-- The function `strings.ToLower`: every character mapped by
`unicode.ToLower`. -/
def stringsToLower (table : Char → Char) (s : String) : String :=
  String.mk (s.data.map (unicodeToLower table))

/-- The function `strings.HasPrefix`. -/
def stringsHasPrefix (s pre : String) : Bool :=
  decide (s.data.take pre.data.length = pre.data)

/-- The loop of `isArchitectureArchiveable` (lines 78-83): false at the first
architecture whose lower-case form does not start with `arm`. -/
def architectureLoop (table : Char → Char) : List String → Bool
  | [] => true
  | arch :: rest =>
    if !(stringsHasPrefix (stringsToLower table arch) "arm") then false
    else architectureLoop table rest

/-- The function `isArchitectureArchiveable` of utility.go. -/
def isArchitectureArchiveable (table : Char → Char) (architectures : List String) : Bool :=
  if architectures.length = 0 then true
  else architectureLoop table architectures

/-- The reading of the specification for one architecture: its first three
characters are `a`, `r`, `m` in either letter case. -/
def armPrefixedIgnoringCase (arch : String) : Bool :=
  match arch.data with
  | c1 :: c2 :: c3 :: _ =>
    (decide (c1 = 'a') || decide (c1 = 'A')) && (decide (c2 = 'r') || decide (c2 = 'R')) &&
      (decide (c3 = 'm') || decide (c3 = 'M'))
  | _ => false

/-- The function `strings.Split(s, ",")`: the pieces between the commas, one
more than there are commas. -/
def splitComma : List Char → List (List Char)
  | [] => [[]]
  | c :: rest =>
    if c = ',' then [] :: splitComma rest
    else
      match splitComma rest with
      | [] => [[c]]
      | piece :: pieces => (c :: piece) :: pieces

/-- The function `unicode.IsSpace`: the characters of the property
White_Space. -/
def unicodeIsSpace (c : Char) : Bool :=
  let n := c.toNat
  decide ((9 ≤ n ∧ n ≤ 13) ∨ n = 32 ∨ n = 133 ∨ n = 160 ∨ n = 5760 ∨
    (8192 ≤ n ∧ n ≤ 8202) ∨ n = 8232 ∨ n = 8233 ∨ n = 8239 ∨ n = 8287 ∨ n = 12288)

/-- The function `strings.TrimSpace`. -/
def stringsTrimSpace (s : List Char) : List Char :=
  ((s.dropWhile unicodeIsSpace).reverse.dropWhile unicodeIsSpace).reverse

/-- The loop of `main` over the split allow-list (lines 164-176): an entry
that is empty after trimming is skipped, an entry that does not parse ends
the run (`none`), every other entry is appended.  `parseSDK` is
`constants.ParseSDK`, which is not part of the repository; `none` is its
error. -/
def whitelistLoop (parseSDK : String → Option SDK) :
    List (List Char) → List SDK → Option (List SDK)
  | [], projectTypeWhitelist => some projectTypeWhitelist
  | item :: rest, projectTypeWhitelist =>
    let item := stringsTrimSpace item
    if item = [] then whitelistLoop parseSDK rest projectTypeWhitelist
    else
      match parseSDK (String.mk item) with
      | none => none
      | some projectType =>
        whitelistLoop parseSDK rest (projectTypeWhitelist ++ [projectType])

/-- The block "parse project type filters" of `main` (lines 159-177): the
whitelist handed to `builder.New`, or `none` when `failf` ends the run. -/
def parseProjectTypeWhitelist (parseSDK : String → Option SDK)
    (projectTypeWhitelist : String) : Option (List SDK) :=
  if projectTypeWhitelist.data.length > 0 then
    whitelistLoop parseSDK (splitComma projectTypeWhitelist.data) []
  else some []

/-- Modelled from the spec: `constants.ParseSDK` is not under src/.  The
specification only says that an entry parses to a recognized platform kind
or is an error; this stand-in recognizes the four kinds by the names
`android`, `ios`, `tvos` and `macos`.  It is used at concrete inputs only;
the theorems about the loop hold for every parse function. -/
def parseSDKByName (item : String) : Option SDK :=
  if item = "android" then some .android
  else if item = "ios" then some .iOS
  else if item = "tvos" then some .tvOS
  else if item = "macos" then some .macOS
  else none

/-- The comma-separated entries of an allow-list, each trimmed. -/
def trimmedEntries (s : String) : List String :=
  (splitComma s.data).map (fun item => String.mk (stringsTrimSpace item))

/-- Parses the entries in order: `none` when one of them does not parse. -/
def parseEntries (parseSDK : String → Option SDK) : List String → Option (List SDK)
  | [] => some []
  | e :: rest =>
    match parseSDK e with
    | none => none
    | some k =>
      match parseEntries parseSDK rest with
      | none => none
      | some ks => some (k :: ks)

/-- The reading of the specification for the allow-list: the run fails
(`none`) when at least one trimmed entry does not parse, and otherwise the
whitelist is the parsed entries in their order. -/
def specWhitelist (parseSDK : String → Option SDK) (s : String) : Option (List SDK) :=
  parseEntries parseSDK (trimmedEntries s)

/-- The trimmed entries that are not empty. -/
def nonEmptyEntries (s : String) : List String :=
  (trimmedEntries s).filter (fun e => decide (e ≠ ""))

/-- The first filter of `exportApk` (lines 128-136): the candidates kept at
stage 1. -/
def exportApkStage1 (apks : List String) (assemblyName : String) : Outcome (List String) :=
  mustCompile ("(?i)" ++ assemblyName ++ ".*signed.apk") (fun re _ =>
    .ok (filterByPattern re apks))

/-- A character of an assembly name that is an ordinary character of a
pattern: ASCII and none of `\ + * ? ( ) | [ { ^ $`.  The dot is allowed. -/
def plainNameChar (c : Char) : Bool :=
  decide (c.toNat < 128) && !(['\\', '+', '*', '?', '(', ')', '|', '[', '{', '^', '$'].contains c)

/-- The expression a plain character of a case-folding pattern stands for:
any character for the dot, the literal otherwise. -/
def plainAtom (c : Char) : RE := if c = '.' then .any else .chr c true

/-- Does the character `x` of a path match the plain pattern character `c`:
any character but a line break for the dot, `c` ignoring case otherwise. -/
def plainCharMatches (c x : Char) : Bool :=
  if c = '.' then decide (x ≠ '\n') else chrMatches c true x

/-- Does a text match a plain pattern text, character by character. -/
def plainTextMatches : List Char → List Char → Bool
  | [], [] => true
  | c :: cs, x :: xs => plainCharMatches c x && plainTextMatches cs xs
  | _, _ => false

/-- The stage-1 pattern `(?i)<name>.*signed.apk` for a plain assembly name,
compiled. -/
def stage1RE (name : List Char) : RE :=
  mkCat (name.map plainAtom ++
    [.star .any, .chr 's' true, .chr 'i' true, .chr 'g' true, .chr 'n' true, .chr 'e' true,
     .chr 'd' true, .any, .chr 'a' true, .chr 'p' true, .chr 'k' true])

/-- The path contains, compared character by character and ignoring case,
the assembly name and, later and before any line break, `signed`, one
character and `apk`. -/
def pathContainsStage1 (name path : List Char) : Prop :=
  ∃ u x v y w, path = u ++ (x ++ (v ++ (y ++ w))) ∧ plainTextMatches name x = true ∧
    (∀ ch ∈ v, ch ≠ '\n') ∧
    plainTextMatches ['s', 'i', 'g', 'n', 'e', 'd', '.', 'a', 'p', 'k'] y = true

/-! ## utility.go: the resolvers over the standard library

The resolvers once more, with `regexp` and `sort.Sort` as parameters: what is
proved of them holds for every implementation of the two packages, for the
one Go links as for the fragment modelled above. -/

/-- The functions of Go's standard library that the resolvers call on data
of the run: `regexp.Compile` on the pattern built from the assembly name (an
error makes `regexp.MustCompile` panic), the method `FindString`, and
`sort.Sort` with the comparator of the slice.  They are not part of the
repository.  The error `unsupported` is for partial models of the library
and does not occur for the library itself. -/
structure GoLib where
  Re : Type
  compile : String → Except RegexErr Re
  findString : Re → String → String
  sort : (String → String → Outcome Bool) → List String → Outcome (List String)

/-- The function `regexp.MustCompile` of a library, followed by the rest of
the caller. -/
def mustCompileWith {α : Type} (lib : GoLib) (pattern : String)
    (k : lib.Re → Outcome α) : Outcome α :=
  match lib.compile pattern with
  | .ok re => k re
  | .error .invalid => .panic
  | .error .unsupported => .unmodelled

/-- The filter loops of the resolvers with the `FindString` of a library. -/
def filterWith (lib : GoLib) (re : lib.Re) : List String → List String
  | [] => []
  | x :: rest =>
    if lib.findString re x ≠ "" then x :: filterWith lib re rest
    else filterWith lib re rest

/-- The function `exportApk` of utility.go over a library. -/
def exportApkWith (lib : GoLib) (glob : Except String (List String))
    (assemblyName : String) : Outcome Resolved :=
  match glob with
  | .error err => .ok ("", some ("failed to find apk, error: " ++ err))
  | .ok apks =>
    mustCompileWith lib ("(?i)" ++ assemblyName ++ ".*signed.apk") (fun re =>
      let filteredApks := filterWith lib re apks
      if filteredApks.length = 0 then
        mustCompileWith lib (assemblyName ++ ".apk") (fun re2 =>
          let filteredApks2 := filteredApks ++ filterWith lib re2 apks
          if filteredApks2.length = 0 then .ok (firstOrEmpty apks)
          else .ok (firstOrEmpty filteredApks2))
      else .ok (firstOrEmpty filteredApks))

/-- The common shape of `exportAppDSYM`, `exportPKG` and `exportApp` over a
library. -/
def exportFirstWith (lib : GoLib) (what pattern : String)
    (glob : Except String (List String)) (rePattern : String) : Outcome Resolved :=
  match glob with
  | .error err =>
    .ok ("", some ("failed to find " ++ what ++ " with pattern (" ++ pattern ++
      "), error: " ++ err))
  | .ok found =>
    if found.length = 0 then .ok ("", none)
    else
      mustCompileWith lib rePattern (fun re =>
        let filtered := filterWith lib re found
        let filtered2 := if filtered.length = 0 then found else filtered
        .ok (firstOrEmpty filtered2))

/-- The function `exportAppDSYM` of utility.go over a library. -/
def exportAppDSYMWith (lib : GoLib) (pattern : String) (glob : Except String (List String))
    (assemblyName : String) : Outcome Resolved :=
  exportFirstWith lib "dsym" pattern glob (assemblyName ++ ".app.dSYM")

/-- The function `exportPKG` of utility.go over a library. -/
def exportPKGWith (lib : GoLib) (pattern : String) (glob : Except String (List String))
    (assemblyName : String) : Outcome Resolved :=
  exportFirstWith lib "pkg" pattern glob (assemblyName ++ ".*.pkg")

/-- The function `exportApp` of utility.go over a library. -/
def exportAppWith (lib : GoLib) (pattern : String) (glob : Except String (List String))
    (assemblyName : String) : Outcome Resolved :=
  exportFirstWith lib "app" pattern glob (assemblyName ++ ".app")

/-- The common shape of `exportLatestXCArchive` and `exportLatestIpa` over a
library. -/
def exportLatestWith (lib : GoLib) (what pattern : String)
    (less : String → String → Outcome Bool)
    (glob : Except String (List String)) (rePattern : String) : Outcome Resolved :=
  match glob with
  | .error err =>
    .ok ("", some ("failed to find " ++ what ++ " with pattern (" ++ pattern ++
      "), error: " ++ err))
  | .ok found =>
    if found.length = 0 then .ok ("", none)
    else
      mustCompileWith lib rePattern (fun re =>
        let filtered := filterWith lib re found
        let filtered2 := if filtered.length = 0 then found else filtered
        if filtered2.length = 0 then .ok ("", none)
        else
          match lib.sort less filtered2 with
          | .ok sorted => .ok (firstOrEmpty sorted)
          | .panic => .panic
          | .unmodelled => .unmodelled)

/-- The function `exportLatestXCArchive` of utility.go over a library. -/
def exportLatestXCArchiveWith (lib : GoLib) (pattern : String)
    (glob : Except String (List String)) (assemblyName : String) : Outcome Resolved :=
  exportLatestWith lib "xcarchive" pattern archiveLess glob
    (".*/" ++ assemblyName ++ ".xcarchive")

/-- The function `exportLatestIpa` of utility.go over a library. -/
def exportLatestIpaWith (lib : GoLib) (pattern : String)
    (glob : Except String (List String)) (assemblyName : String) : Outcome Resolved :=
  exportLatestWith lib "ipa" pattern ipaLess glob
    (assemblyName ++ " .*/" ++ assemblyName ++ ".ipa")

/-- The library as this file models it: the fragment of `regexp` above and
`sort.Sort` on short slices. -/
def modelLib : GoLib where
  Re := RE
  compile := fun pattern =>
    match regexpCompile pattern with
    | .ok (re, _) => .ok re
    | .error e => .error e
  findString := findString
  sort := sortSort

/-- The model library with `insertionSort` at every length as its sort. -/
def insertionLib : GoLib where
  Re := RE
  compile := modelLib.compile
  findString := findString
  sort := insertionSort

/-- The contract of `sort.Sort`: when the comparator returns for all pairs of
the slice and is a strict weak ordering on it, the call returns a
rearrangement of the slice in which no element is less than its
predecessor. -/
def SortContract
    (sort : (String → String → Outcome Bool) → List String → Outcome (List String)) : Prop :=
  ∀ (less : String → String → Outcome Bool) (data : List String),
    (∀ x ∈ data, ∀ y ∈ data, ∃ b, less x y = .ok b) →
    (∀ x ∈ data, less x x = .ok false) →
    (∀ x ∈ data, ∀ y ∈ data, ∀ z ∈ data,
      less x y = .ok true → less y z = .ok true → less x z = .ok true) →
    (∀ x ∈ data, ∀ y ∈ data, ∀ z ∈ data,
      less x y = .ok false → less y z = .ok false → less x z = .ok false) →
    ∃ out, sort less data = .ok out ∧ out.Perm data ∧
      List.Chain' (fun a c => less c a = .ok false) out

/-- What `sort.Sort` does with every comparator: it only swaps elements, so a
call that returns has rearranged the slice. -/
def SortPermutes
    (sort : (String → String → Outcome Bool) → List String → Outcome (List String)) : Prop :=
  ∀ (less : String → String → Outcome Bool) (data out : List String),
    sort less data = .ok out → out.Perm data

/-- The test of the resolvers over a library: `re.FindString(candidate) != ""`. -/
def matchesWith (lib : GoLib) (re : lib.Re) (candidate : String) : Bool :=
  decide (lib.findString re candidate ≠ "")

/-- The three-stage fallback chain of the specification for the APK over a
library: the first candidate of stage 1, else the first candidate of stage 2,
else the first glob candidate, else the empty path. -/
def apkChainWith (lib : GoLib) (signedRe plainRe : lib.Re) (apks : List String) : String :=
  match apks.find? (matchesWith lib signedRe) with
  | some apk => apk
  | none =>
    match apks.find? (matchesWith lib plainRe) with
    | some apk => apk
    | none => apks.headD ""

/-- The candidates a resolver keeps after its name filter, over a library:
those that pass the test, or all of them when none does. -/
def nameFilteredWith (lib : GoLib) (re : lib.Re) (found : List String) : List String :=
  if (found.filter (matchesWith lib re)).length = 0 then found
  else found.filter (matchesWith lib re)

/-! ## Theorems -/

set_option maxRecDepth 100000

/-- C2: `isProjectTypeAllowed` is true for every kind when the whitelist is
empty; with a non-empty whitelist and one of the four platform kinds it is
true exactly when the kind is an element of the whitelist. -/
theorem isProjectTypeAllowed_whitelist (kind : ProjectType) (wl : List ProjectType) :
    (wl = [] → isProjectTypeAllowed kind wl = true) ∧
    (wl ≠ [] → kind ∈ platformKinds →
      (isProjectTypeAllowed kind wl = true ↔ kind ∈ wl)) := by
  constructor
  · intro h
    subst h
    rfl
  · intro hne hk
    have hloop : whiteListLoop kind wl = true ↔ kind ∈ wl := by
      induction wl with
      | nil => exact absurd rfl hne
      | cons f rest ih =>
        by_cases hrest : rest = []
        · subst hrest
          simp only [platformKinds, List.mem_cons, List.mem_singleton,
            List.not_mem_nil, or_false] at hk
          rcases hk with h | h | h | h <;> subst h <;> cases f <;>
            simp [whiteListLoop, filterAccepts]
        · have ih2 := ih hrest
          simp only [platformKinds, List.mem_cons, List.mem_singleton,
            List.not_mem_nil, or_false] at hk
          simp only [whiteListLoop, List.mem_cons]
          rcases hk with h | h | h | h <;> subst h <;> cases f <;>
            simp [filterAccepts, ih2]
    unfold isProjectTypeAllowed
    have hlen : ¬ wl.length = 0 := by
      intro h
      exact hne (List.length_eq_zero.mp h)
    simp only [hlen, if_false]
    exact hloop

/-- Witness of C2 at kind Android: the empty whitelist, and the whitelist
`[iOS, Android, iOS]`. -/
theorem isProjectTypeAllowed_whitelist_witness :
    isProjectTypeAllowed .android [] = true ∧
    (isProjectTypeAllowed .android [.iOS, .android, .iOS] = true ↔
      ProjectType.android ∈ [ProjectType.iOS, .android, .iOS]) :=
  ⟨(isProjectTypeAllowed_whitelist .android []).1 rfl,
   (isProjectTypeAllowed_whitelist .android [.iOS, .android, .iOS]).2
     (by decide) (by decide)⟩

/-- C9: in the export loop a (platform, output type) pair leads to an export
call exactly when the output type belongs to the fixed set of the platform;
every other pair makes no call. -/
theorem exportCalls_iff_platformOutputSet (projectType : SDK) (outputType : OutputType) :
    exportCalls projectType outputType ≠ [] ↔
      outputType ∈ platformOutputSet projectType := by
  cases projectType <;> cases outputType <;> decide

/-- C10 fails as stated: `anycpu` equals `AnyCPU` when case is ignored, and
`isPlatformAnyCPU` rejects it. -/
theorem isPlatformAnyCPU_lowercase_rejected :
    specAnyCPUIgnoringCase "anycpu" = true ∧ isPlatformAnyCPU "anycpu" = false := by
  decide

/-- C10, amended: `isPlatformAnyCPU` is true exactly for the two spellings
`Any CPU` and `AnyCPU`, compared with their letter case. -/
theorem isPlatformAnyCPU_exact (platform : String) :
    isPlatformAnyCPU platform = true ↔ platform = "Any CPU" ∨ platform = "AnyCPU" := by
  simp [isPlatformAnyCPU]

/-- The filter loop keeps the candidates that pass the test, in order. -/
theorem filterByPattern_eq_filter (re : RE) (xs : List String) :
    filterByPattern re xs = xs.filter (matchesPattern re) := by
  induction xs with
  | nil => rfl
  | cons x rest ih =>
    by_cases h : findString re x = ""
    · simp [filterByPattern, matchesPattern, h, ih]
    · simp [filterByPattern, matchesPattern, h, ih]

/-- The first element of a filtered list is the first element that passes. -/
theorem firstOrEmpty_filter (p : String → Bool) (xs : List String) :
    firstOrEmpty (xs.filter p) = ((xs.find? p).getD "", none) := by
  induction xs with
  | nil => rfl
  | cons x rest ih =>
    by_cases h : p x = true
    · simp [List.filter, List.find?, h, firstOrEmpty]
    · simp only [Bool.not_eq_true] at h
      simp [List.filter, List.find?, h, ih]

/-- A filtered list is empty exactly when no element passes. -/
theorem filter_length_zero_iff (p : String → Bool) (xs : List String) :
    (xs.filter p).length = 0 ↔ xs.find? p = none := by
  rw [List.length_eq_zero, List.filter_eq_nil_iff, List.find?_eq_none]

/-- C1 fails as stated: for the assembly name `Foo(` both patterns are
invalid and `exportApk` panics in `regexp.MustCompile`, although the glob
has the candidate `out/Foo(.apk`. -/
theorem exportApk_panics_on_open_paren :
    exportApk (.ok ["out/Foo(.apk"]) "Foo(" = .panic := by
  decide

/-! ### The matcher on one-character loops -/

/-- A greedy loop over a one-character step lists the same results as
`starRun`, once the fuel covers the input. -/
theorem starLoop_atomStep (p : Char → Bool) :
    ∀ (fuel : Nat) (s : List Char) (caps : Caps), s.length ≤ fuel →
      starLoop (atomStep p) fuel s caps = starRun p s caps := by
  intro fuel
  induction fuel with
  | zero =>
    intro s caps h
    have hs : s = [] := List.length_eq_zero.mp (Nat.le_zero.mp h)
    subst hs
    rfl
  | succ fuel ih =>
    intro s caps h
    cases s with
    | nil => simp [starLoop, atomStep, starRun, plusRun]
    | cons x rest =>
      have hr : rest.length ≤ fuel := by
        simp only [List.length_cons] at h
        omega
      by_cases hp : p x = true
      · simp [starLoop, atomStep, starRun, plusRun, hp, ih rest caps hr]
      · simp [starLoop, atomStep, starRun, plusRun, hp]

/-- The three one-character expressions are one-character steps. -/
theorem matchRE_any_eq : matchRE .any = atomStep (fun x => decide (x ≠ '\n')) := by
  funext s caps
  cases s with
  | nil => rfl
  | cons x rest =>
    by_cases h : x = '\n' <;> simp [matchRE, atomStep, h]

/-- A bracket class is a one-character step. -/
theorem matchRE_cls_eq (neg : Bool) (ranges : List (Char × Char)) (fold : Bool) :
    matchRE (.cls neg ranges fold) = atomStep (clsMatches neg ranges fold) := by
  funext s caps
  cases s <;> rfl

/-- A literal is a one-character step. -/
theorem matchRE_chr_eq (c : Char) (fold : Bool) :
    matchRE (.chr c fold) = atomStep (chrMatches c fold) := by
  funext s caps
  cases s <;> rfl

/-- The expression `.*` lists the results of `starRun`. -/
theorem matchRE_star_any (s : List Char) (caps : Caps) :
    matchRE (.star .any) s caps = starRun (fun x => decide (x ≠ '\n')) s caps := by
  show starLoop (matchRE .any) s.length s caps = _
  rw [matchRE_any_eq]
  exact starLoop_atomStep _ _ _ _ (Nat.le_refl _)

/-- The expression `[...]*` lists the results of `starRun`. -/
theorem matchRE_star_cls (neg : Bool) (ranges : List (Char × Char)) (fold : Bool)
    (s : List Char) (caps : Caps) :
    matchRE (.star (.cls neg ranges fold)) s caps =
      starRun (clsMatches neg ranges fold) s caps := by
  show starLoop (matchRE (.cls neg ranges fold)) s.length s caps = _
  rw [matchRE_cls_eq]
  exact starLoop_atomStep _ _ _ _ (Nat.le_refl _)

/-- The expression `[...]+` lists the results of `plusRun`. -/
theorem matchRE_plus_cls (neg : Bool) (ranges : List (Char × Char)) (fold : Bool)
    (s : List Char) (caps : Caps) :
    matchRE (.plus (.cls neg ranges fold)) s caps =
      plusRun (clsMatches neg ranges fold) s caps := by
  show (matchRE (.cls neg ranges fold) s caps).flatMap
      (fun r => starLoop (matchRE (.cls neg ranges fold)) r.1.length r.1 r.2) = _
  rw [matchRE_cls_eq]
  cases s with
  | nil => rfl
  | cons x rest =>
    by_cases hp : clsMatches neg ranges fold x = true
    · simp only [atomStep, hp, if_true, List.flatMap_cons, List.flatMap_nil,
        List.append_nil, plusRun]
      rw [starLoop_atomStep _ _ _ _ (Nat.le_refl _)]
      rfl
    · simp [atomStep, plusRun, hp]

theorem regexpCompile_ipaDatePattern : regexpCompile ipaDatePattern = .ok (ipaDateRE, 2) := by
  rfl

theorem digit_toNat {x : Char} (h : x.isDigit = true) : 48 ≤ x.toNat ∧ x.toNat ≤ 57 := by
  simp only [Char.isDigit, Bool.and_eq_true, decide_eq_true_eq] at h
  obtain ⟨h1, h2⟩ := h
  constructor
  · exact h1
  · exact h2

theorem ddCls_digit {x : Char} (h : x.isDigit = true) :
    clsMatches false [('0', '9'), ('-', '-')] false x = true := by
  have := digit_toNat h
  simp [clsMatches, inRanges, this.1, this.2]

theorem dash_ne_digit {x : Char} (h : x.isDigit = true) : chrMatches '-' false x = false := by
  have := digit_toNat h
  simp only [chrMatches, Bool.false_eq_true, if_false, decide_eq_false_iff_not]
  intro hx
  subst hx
  revert this
  decide

theorem space_ne_digit {x : Char} (h : x.isDigit = true) : chrMatches ' ' false x = false := by
  have := digit_toNat h
  simp only [chrMatches, Bool.false_eq_true, if_false, decide_eq_false_iff_not]
  intro hx
  subst hx
  revert this
  decide

theorem matchRE_cat (a b : RE) (s : List Char) (caps : Caps) :
    matchRE (.cat a b) s caps = (matchRE a s caps).flatMap (fun r => matchRE b r.1 r.2) := rfl

theorem matchRE_chr_cons (c : Char) (fold : Bool) (x : Char) (rest : List Char) (caps : Caps) :
    matchRE (.chr c fold) (x :: rest) caps =
      if chrMatches c fold x then [(rest, caps)] else [] := rfl

theorem matchRE_chr_nil (c : Char) (fold : Bool) (caps : Caps) :
    matchRE (.chr c fold) [] caps = [] := rfl

theorem dash_dash : chrMatches '-' false '-' = true := by decide

theorem space_dash : chrMatches ' ' false '-' = false := by decide

theorem dash_space : chrMatches '-' false ' ' = false := by decide

theorem space_space : chrMatches ' ' false ' ' = true := by decide

theorem ddCls_dash : clsMatches false [('0', '9'), ('-', '-')] false '-' = true := by decide

theorem ddCls_space : clsMatches false [('0', '9'), ('-', '-')] false ' ' = false := by decide

theorem plusRun_flatMap_chr_nil (p : Char → Bool) (c : Char) (fold : Bool)
    (k : MState → List MState) :
    ∀ (s : List Char) (caps : Caps), (∀ x ∈ s, chrMatches c fold x = false) →
      (plusRun p s caps).flatMap (fun r => (matchRE (.chr c fold) r.1 r.2).flatMap k) = [] := by
  intro s
  induction s with
  | nil => intro caps _; rfl
  | cons x rest ih =>
    intro caps h
    have hrest : ∀ y ∈ rest, chrMatches c fold y = false :=
      fun y hy => h y (List.mem_cons_of_mem _ hy)
    by_cases hp : p x = true
    · simp only [plusRun, hp, if_true, List.flatMap_append, ih caps hrest, List.nil_append,
        List.flatMap_cons, List.flatMap_nil, List.append_nil]
      cases rest with
      | nil => rfl
      | cons y rest2 =>
        simp [matchRE_chr_cons, h y (List.mem_cons_of_mem _ (List.mem_cons_self _ _))]
    · simp [plusRun, hp]

theorem stampRE_on_digits (ds : List Char) (hds : ∀ x ∈ ds, x.isDigit = true) (caps : Caps) :
    matchRE stampRE ds caps = [] := by
  have key := plusRun_flatMap_chr_nil (clsMatches false [('0', '9'), ('-', '-')] false) '-' false
  simp only [stampRE, ddCls, matchRE_cat, matchRE_plus_cls]
  exact key _ ds caps (fun x hx => dash_ne_digit (hds x hx))

theorem stampRE_on_stamp_ext (y1 y2 y3 y4 m1 m2 d1 d2 h1 h2 n1 n2 s1 s2 : Char)
    (hy1 : y1.isDigit = true) (hy2 : y2.isDigit = true) (hy3 : y3.isDigit = true)
    (hy4 : y4.isDigit = true) (hm1 : m1.isDigit = true) (hm2 : m2.isDigit = true)
    (hd1 : d1.isDigit = true) (hd2 : d2.isDigit = true) (hh1 : h1.isDigit = true)
    (hh2 : h2.isDigit = true) (hn1 : n1.isDigit = true) (hn2 : n2.isDigit = true)
    (hs1 : s1.isDigit = true) (hs2 : s2.isDigit = true) (caps : Caps)
    (S : List Char) (hS : S = [] ∨ ∃ ds, S = ' ' :: ds) :
    matchRE stampRE
      ([y1, y2, y3, y4, '-', m1, m2, '-', d1, d2, ' ', h1, h2, '-', n1, n2, '-', s1, s2] ++ S) caps
      = [(S, caps), (s2 :: S, caps)] := by
  rcases hS with hS | ⟨ds, hS⟩ <;> subst hS <;>
  simp only [stampRE, ddCls, matchRE_cat, matchRE_plus_cls, matchRE_chr_cons, matchRE_chr_nil,
    plusRun, ddCls_digit, dash_ne_digit, space_ne_digit, dash_dash, space_dash, dash_space,
    space_space, ddCls_dash, ddCls_space, hy1, hy2, hy3, hy4, hm1, hm2, hd1, hd2, hh1, hh2,
    hn1, hn2, hs1, hs2, if_true, if_false, List.flatMap_append, List.flatMap_cons,
    List.flatMap_nil, List.append_nil, List.nil_append, Bool.false_eq_true, List.cons_append]

theorem stampRE_on_time (h1 h2 n1 n2 s1 s2 : Char) (hh1 : h1.isDigit = true)
    (hh2 : h2.isDigit = true) (hn1 : n1.isDigit = true) (hn2 : n2.isDigit = true)
    (hs1 : s1.isDigit = true) (hs2 : s2.isDigit = true) (caps : Caps)
    (S : List Char) (hS : S = [] ∨ ∃ ds, S = ' ' :: ds ∧ ∀ x ∈ ds, x.isDigit = true) :
    matchRE stampRE ([h1, h2, '-', n1, n2, '-', s1, s2] ++ S) caps = [] := by
  rcases hS with hS | ⟨ds, hS, hds⟩
  · subst hS
    simp only [stampRE, ddCls, matchRE_cat, matchRE_plus_cls, matchRE_chr_cons, matchRE_chr_nil,
      plusRun, ddCls_digit, dash_ne_digit, space_ne_digit, dash_dash, space_dash, dash_space,
      space_space, ddCls_dash, ddCls_space, hh1, hh2,
      hn1, hn2, hs1, hs2, if_true, if_false, List.flatMap_append, List.flatMap_cons,
      List.flatMap_nil, List.append_nil, List.nil_append, Bool.false_eq_true, List.cons_append]
  · subst hS
    have key := fun k caps => plusRun_flatMap_chr_nil
      (clsMatches false [('0', '9'), ('-', '-')] false) '-' false k ds caps
      (fun x hx => dash_ne_digit (hds x hx))
    simp only [stampRE, ddCls, matchRE_cat, matchRE_plus_cls, matchRE_chr_cons, matchRE_chr_nil,
      plusRun, ddCls_digit, dash_ne_digit, space_ne_digit, dash_dash, space_dash, dash_space,
      space_space, ddCls_dash, ddCls_space, hh1, hh2, key,
      hn1, hn2, hs1, hs2, if_true, if_false, List.flatMap_append, List.flatMap_cons,
      List.flatMap_nil, List.append_nil, List.nil_append, Bool.false_eq_true, List.cons_append]

theorem matchRE_group (idx : Nat) (a : RE) (s : List Char) (caps : Caps) :
    matchRE (.group idx a) s caps =
      (matchRE a s caps).map (fun r => (r.1, (idx, s.take (s.length - r.1.length)) :: caps)) := rfl

theorem matchRE_alt (a b : RE) (s : List Char) (caps : Caps) :
    matchRE (.alt a b) s caps = matchRE a s caps ++ matchRE b s caps := rfl

theorem matchRE_empty (s : List Char) (caps : Caps) : matchRE .empty s caps = [(s, caps)] := rfl

theorem take_length_sub_append (u v : List Char) :
    (u ++ v).take ((u ++ v).length - v.length) = u := by
  simp [List.length_append]

theorem digitCls_digit {x : Char} (h : x.isDigit = true) :
    clsMatches false [('0', '9')] false x = true := by
  have := digit_toNat h
  simp [clsMatches, inRanges, this.1, this.2]

theorem spaceCls_digit {x : Char} (h : x.isDigit = true) :
    clsMatches false [(' ', ' ')] false x = false := by
  have := digit_toNat h
  simp only [clsMatches, inRanges, List.any_cons, List.any_nil, Bool.or_false,
    Bool.false_eq_true, if_false, Bool.and_eq_false_imp, decide_eq_true_eq,
    decide_eq_false_iff_not]
  intro h1
  have h2 : (' ' : Char).toNat = 32 := by decide
  omega

/-- On a non-empty run of characters passing the test, the preferred result
of a greedy `+` consumes the whole run. -/
theorem plusRun_all (p : Char → Bool) :
    ∀ (s : List Char) (caps : Caps), s ≠ [] → (∀ x ∈ s, p x = true) →
      ∃ tl, plusRun p s caps = ([], caps) :: tl := by
  intro s
  induction s with
  | nil => intro caps h _; exact absurd rfl h
  | cons x rest ih =>
    intro caps _ h
    have hx : p x = true := h x (List.mem_cons_self _ _)
    cases rest with
    | nil => exact ⟨[], by simp [plusRun, hx]⟩
    | cons y rest2 =>
      obtain ⟨tl, htl⟩ := ih caps (List.cons_ne_nil _ _)
        (fun z hz => h z (List.mem_cons_of_mem _ hz))
      exact ⟨tl ++ [(y :: rest2, caps)], by
        simp only [plusRun, hx, if_true] at htl ⊢
        rw [htl]
        rfl⟩

/-- The tail of the pattern after the time stamp: spaces, then the count.
On an absent suffix the count is empty; on a space and digits it is the
digits. -/
theorem ipaTailRE_head (ds : List Char) (hds : ∀ x ∈ ds, x.isDigit = true) (caps : Caps) :
    (matchRE ipaTailRE (if ds = [] then [] else ' ' :: ds) caps).head? =
      some ([], (2, ds) :: caps) := by
  cases ds with
  | nil =>
    simp [ipaTailRE, matchRE_cat, matchRE_star_cls, starRun, plusRun, matchRE_group,
      matchRE_alt, matchRE_plus_cls, matchRE_empty]
  | cons d rest =>
    obtain ⟨tl, htl⟩ := plusRun_all (clsMatches false [('0', '9')] false) (d :: rest)
      caps (List.cons_ne_nil _ _)
      (fun x hx => digitCls_digit (hds x hx))
    have hd := hds d (List.mem_cons_self _ _)
    have hsp : clsMatches false [(' ', ' ')] false ' ' = true := by decide
    simp only [ipaTailRE, matchRE_cat, matchRE_star_cls, starRun, plusRun, matchRE_group,
      matchRE_alt, matchRE_plus_cls, matchRE_empty, reduceCtorEq, if_false, hsp, if_true,
      spaceCls_digit hd, Bool.false_eq_true, List.nil_append, List.cons_append,
      List.flatMap_cons, digitCls_digit hd]
    simp only [plusRun, digitCls_digit hd, if_true] at htl
    rw [htl]
    simp

theorem sufText_shape (ds : List Char) (hds : ∀ x ∈ ds, x.isDigit = true) :
    sufText ds = [] ∨ ∃ ds2, sufText ds = ' ' :: ds2 ∧ ∀ x ∈ ds2, x.isDigit = true := by
  unfold sufText
  by_cases h : ds = []
  · left; simp [h]
  · right; exact ⟨ds, by simp [h], hds⟩

theorem notNL_digit {x : Char} (h : x.isDigit = true) : decide (x ≠ '\n') = true := by
  have := digit_toNat h
  simp only [ne_eq, decide_not, Bool.not_eq_eq_eq_not, Bool.not_true, decide_eq_false_iff_not]
  intro hx
  subst hx
  revert this
  decide

theorem chr_space_on_digits (ds : List Char) (hds : ∀ x ∈ ds, x.isDigit = true) (caps : Caps) :
    matchRE (.chr ' ' false) ds caps = [] := by
  cases ds with
  | nil => rfl
  | cons d rest => simp [matchRE_chr_cons, space_ne_digit (hds d (List.mem_cons_self _ _))]

theorem ipaBodyRE_head (y1 y2 y3 y4 m1 m2 d1 d2 h1 h2 n1 n2 s1 s2 : Char)
    (hy1 : y1.isDigit = true) (hy2 : y2.isDigit = true) (hy3 : y3.isDigit = true)
    (hy4 : y4.isDigit = true) (hm1 : m1.isDigit = true) (hm2 : m2.isDigit = true)
    (hd1 : d1.isDigit = true) (hd2 : d2.isDigit = true) (hh1 : h1.isDigit = true)
    (hh2 : h2.isDigit = true) (hn1 : n1.isDigit = true) (hn2 : n2.isDigit = true)
    (hs1 : s1.isDigit = true) (hs2 : s2.isDigit = true) (caps : Caps)
    (ds : List Char) (hds : ∀ x ∈ ds, x.isDigit = true) :
    (matchRE ipaBodyRE
      (' ' :: ([y1, y2, y3, y4, '-', m1, m2, '-', d1, d2, ' ', h1, h2, '-', n1, n2, '-', s1, s2]
        ++ sufText ds)) caps).head? =
      some ([], (2, ds) ::
        (1, [y1, y2, y3, y4, '-', m1, m2, '-', d1, d2, ' ', h1, h2, '-', n1, n2, '-', s1, s2])
          :: caps) := by
  have hS : sufText ds = [] ∨ ∃ ds2, sufText ds = ' ' :: ds2 := by
    rcases sufText_shape ds hds with h | ⟨ds2, h, _⟩
    · exact Or.inl h
    · exact Or.inr ⟨ds2, h⟩
  have hstamp := stampRE_on_stamp_ext y1 y2 y3 y4 m1 m2 d1 d2 h1 h2 n1 n2 s1 s2
    hy1 hy2 hy3 hy4 hm1 hm2 hd1 hd2 hh1 hh2 hn1 hn2 hs1 hs2 caps (sufText ds) hS
  have htail := ipaTailRE_head ds hds
    ((1, [y1, y2, y3, y4, '-', m1, m2, '-', d1, d2, ' ', h1, h2, '-', n1, n2, '-', s1, s2])
      :: caps)
  rw [ipaBodyRE, matchRE_cat, matchRE_chr_cons, space_space]
  simp only [if_true, List.flatMap_cons, List.flatMap_nil, List.append_nil]
  rw [matchRE_cat, matchRE_group, hstamp]
  simp only [List.map_cons, List.flatMap_cons, take_length_sub_append]
  rw [List.head?_append]
  unfold sufText
  rw [htail]
  rfl

theorem stampRE_on_time_cons (h1 h2 n1 n2 s1 s2 : Char) (hh1 : h1.isDigit = true)
    (hh2 : h2.isDigit = true) (hn1 : n1.isDigit = true) (hn2 : n2.isDigit = true)
    (hs1 : s1.isDigit = true) (hs2 : s2.isDigit = true) (caps : Caps)
    (S : List Char) (hS : S = [] ∨ ∃ ds, S = ' ' :: ds ∧ ∀ x ∈ ds, x.isDigit = true) :
    matchRE stampRE (h1 :: h2 :: '-' :: n1 :: n2 :: '-' :: s1 :: s2 :: S) caps = [] :=
  stampRE_on_time h1 h2 n1 n2 s1 s2 hh1 hh2 hn1 hn2 hs1 hs2 caps S hS

/-- Behind the space that ends the name, no later position of the directory
name lets the rest of the pattern match. -/
theorem ipaBodyRE_later_fail (y1 y2 y3 y4 m1 m2 d1 d2 h1 h2 n1 n2 s1 s2 : Char)
    (hy1 : y1.isDigit = true) (hy2 : y2.isDigit = true) (hy3 : y3.isDigit = true)
    (hy4 : y4.isDigit = true) (hm1 : m1.isDigit = true) (hm2 : m2.isDigit = true)
    (hd1 : d1.isDigit = true) (hd2 : d2.isDigit = true) (hh1 : h1.isDigit = true)
    (hh2 : h2.isDigit = true) (hn1 : n1.isDigit = true) (hn2 : n2.isDigit = true)
    (hs1 : s1.isDigit = true) (hs2 : s2.isDigit = true) (caps : Caps)
    (ds : List Char) (hds : ∀ x ∈ ds, x.isDigit = true) :
    (plusRun (fun x => decide (x ≠ '\n'))
      (' ' :: ([y1, y2, y3, y4, '-', m1, m2, '-', d1, d2, ' ', h1, h2, '-', n1, n2, '-', s1, s2]
        ++ sufText ds)) caps).flatMap (fun r => matchRE ipaBodyRE r.1 r.2) = [] := by
  have htime := fun caps => stampRE_on_time_cons h1 h2 n1 n2 s1 s2 hh1 hh2 hn1 hn2 hs1 hs2 caps
    (sufText ds) (sufText_shape ds hds)
  have nlsp : decide ((' ' : Char) ≠ '\n') = true := by decide
  have nldash : decide (('-' : Char) ≠ '\n') = true := by decide
  have hrun : (plusRun (fun x => decide (x ≠ '\n')) (sufText ds) caps).flatMap
      (fun r => matchRE ipaBodyRE r.1 r.2) = [] := by
    unfold sufText
    by_cases h : ds = []
    · simp [h, plusRun]
    · have key := plusRun_flatMap_chr_nil (fun x => decide (x ≠ '\n')) ' ' false
        (fun r => matchRE (.cat (.group 1 stampRE) ipaTailRE) r.1 r.2) ds caps
        (fun x hx => space_ne_digit (hds x hx))
      simp only [h, if_false, plusRun, nlsp, if_true, List.flatMap_append, List.flatMap_cons,
        List.flatMap_nil, List.append_nil]
      simp only [ipaBodyRE, matchRE_cat, chr_space_on_digits ds hds]
      simp only [matchRE_cat] at key
      rw [key]
      rfl
  have hsuf : matchRE ipaBodyRE (sufText ds) caps = [] := by
    unfold sufText
    by_cases h : ds = []
    · simp [h, ipaBodyRE, matchRE_cat, matchRE_chr_nil]
    · simp [h, ipaBodyRE, matchRE_cat, matchRE_chr_cons, space_space, matchRE_group,
        stampRE_on_digits ds hds]
  show (plusRun (fun x => decide (x ≠ '\n'))
      (' ' :: y1 :: y2 :: y3 :: y4 :: '-' :: m1 :: m2 :: '-' :: d1 :: d2 :: ' ' :: h1 :: h2 ::
        '-' :: n1 :: n2 :: '-' :: s1 :: s2 :: sufText ds) caps).flatMap
      (fun r => matchRE ipaBodyRE r.1 r.2) = []
  simp only [plusRun, nlsp, nldash, notNL_digit, hy1, hy2,
    hy3, hy4, hm1, hm2, hd1, hd2, hh1, hh2, hn1, hn2, hs1, hs2, if_true, List.flatMap_append,
    List.flatMap_cons, List.flatMap_nil, List.append_nil, hrun, hsuf]
  simp only [ipaBodyRE, matchRE_cat, matchRE_chr_cons, dash_ne_digit, space_ne_digit,
    space_dash, space_space, hy1, hy2,
    hy3, hy4, hm1, hm2, hd1, hd2, hh1, hh2, hn1, hn2, hs1, hs2, if_true, if_false,
    Bool.false_eq_true, List.flatMap_nil, List.flatMap_cons, List.append_nil, matchRE_group,
    htime, List.map_nil]

/-- A greedy `*` over a run that passes the test lists the results behind
the run first. -/
theorem starRun_append_prefix (p : Char → Bool) (b : List Char) (caps : Caps) :
    ∀ (name : List Char), (∀ x ∈ name, p x = true) →
      ∃ E, starRun p (name ++ b) caps = starRun p b caps ++ E := by
  intro name
  induction name with
  | nil => intro _; exact ⟨[], by simp⟩
  | cons x rest ih =>
    intro h
    obtain ⟨E, hE⟩ := ih (fun y hy => h y (List.mem_cons_of_mem _ hy))
    have hx := h x (List.mem_cons_self _ _)
    refine ⟨E ++ [(x :: (rest ++ b), caps)], ?_⟩
    have : starRun p (x :: (rest ++ b)) caps =
        starRun p (rest ++ b) caps ++ [(x :: (rest ++ b), caps)] := by
      simp [starRun, plusRun, hx]
    rw [List.cons_append, this, hE, List.append_assoc]

theorem findFirst_of_head (re : RE) (s : List Char) (r : MState)
    (h : (matchRE re s []).head? = some r) : findFirst re s = some (s, r) := by
  cases s with
  | nil => simp [findFirst, h]
  | cons x rest => simp [findFirst, h]

theorem ipaDateRE_head (y1 y2 y3 y4 m1 m2 d1 d2 h1 h2 n1 n2 s1 s2 : Char)
    (hy1 : y1.isDigit = true) (hy2 : y2.isDigit = true) (hy3 : y3.isDigit = true)
    (hy4 : y4.isDigit = true) (hm1 : m1.isDigit = true) (hm2 : m2.isDigit = true)
    (hd1 : d1.isDigit = true) (hd2 : d2.isDigit = true) (hh1 : h1.isDigit = true)
    (hh2 : h2.isDigit = true) (hn1 : n1.isDigit = true) (hn2 : n2.isDigit = true)
    (hs1 : s1.isDigit = true) (hs2 : s2.isDigit = true)
    (ds : List Char) (hds : ∀ x ∈ ds, x.isDigit = true)
    (name : List Char) (hname : ∀ x ∈ name, x ≠ '\n') :
    (matchRE ipaDateRE (name ++ ' ' ::
      ([y1, y2, y3, y4, '-', m1, m2, '-', d1, d2, ' ', h1, h2, '-', n1, n2, '-', s1, s2]
        ++ sufText ds)) []).head? =
      some ([], [(2, ds),
        (1, [y1, y2, y3, y4, '-', m1, m2, '-', d1, d2, ' ', h1, h2, '-', n1, n2, '-', s1, s2])]) := by
  obtain ⟨E, hE⟩ := starRun_append_prefix (fun x => decide (x ≠ '\n'))
    (' ' :: ([y1, y2, y3, y4, '-', m1, m2, '-', d1, d2, ' ', h1, h2, '-', n1, n2, '-', s1, s2]
        ++ sufText ds)) [] name (fun x hx => by simpa using hname x hx)
  have hfail := ipaBodyRE_later_fail y1 y2 y3 y4 m1 m2 d1 d2 h1 h2 n1 n2 s1 s2
    hy1 hy2 hy3 hy4 hm1 hm2 hd1 hd2 hh1 hh2 hn1 hn2 hs1 hs2 [] ds hds
  have hhead := ipaBodyRE_head y1 y2 y3 y4 m1 m2 d1 d2 h1 h2 n1 n2 s1 s2
    hy1 hy2 hy3 hy4 hm1 hm2 hd1 hd2 hh1 hh2 hn1 hn2 hs1 hs2 [] ds hds
  rw [ipaDateRE, matchRE_cat, matchRE_star_any, hE, List.flatMap_append]
  rw [starRun, List.flatMap_append, hfail, List.nil_append, List.flatMap_cons,
    List.flatMap_nil, List.append_nil, List.head?_append, hhead]
  rfl

theorem ipa_submatch (y1 y2 y3 y4 m1 m2 d1 d2 h1 h2 n1 n2 s1 s2 : Char)
    (hy1 : y1.isDigit = true) (hy2 : y2.isDigit = true) (hy3 : y3.isDigit = true)
    (hy4 : y4.isDigit = true) (hm1 : m1.isDigit = true) (hm2 : m2.isDigit = true)
    (hd1 : d1.isDigit = true) (hd2 : d2.isDigit = true) (hh1 : h1.isDigit = true)
    (hh2 : h2.isDigit = true) (hn1 : n1.isDigit = true) (hn2 : n2.isDigit = true)
    (hs1 : s1.isDigit = true) (hs2 : s2.isDigit = true)
    (ds : List Char) (hds : ∀ x ∈ ds, x.isDigit = true)
    (name : List Char) (hname : ∀ x ∈ name, x ≠ '\n') :
    findStringSubmatch ipaDateRE 2 (String.mk (name ++ ' ' ::
      ([y1, y2, y3, y4, '-', m1, m2, '-', d1, d2, ' ', h1, h2, '-', n1, n2, '-', s1, s2]
        ++ sufText ds))) =
      [String.mk (name ++ ' ' ::
        ([y1, y2, y3, y4, '-', m1, m2, '-', d1, d2, ' ', h1, h2, '-', n1, n2, '-', s1, s2]
          ++ sufText ds)),
       String.mk [y1, y2, y3, y4, '-', m1, m2, '-', d1, d2, ' ', h1, h2, '-', n1, n2, '-', s1, s2],
       String.mk ds] := by
  have h := findFirst_of_head _ _ _ (ipaDateRE_head y1 y2 y3 y4 m1 m2 d1 d2 h1 h2 n1 n2 s1 s2
    hy1 hy2 hy3 hy4 hm1 hm2 hd1 hd2 hh1 hh2 hn1 hn2 hs1 hs2 ds hds name hname)
  unfold findStringSubmatch
  simp only [h, List.length_nil, Nat.sub_zero, List.take_length]
  simp [capText, List.range, List.range.loop]

theorem digitVal_lt {x : Char} (h : x.isDigit = true) : digitVal x < 10 := by
  have := digit_toNat h
  unfold digitVal
  omega

theorem digit_ne_space {x : Char} (h : x.isDigit = true) : x ≠ ' ' := by
  have := digit_toNat h
  intro hx
  subst hx
  revert this
  decide

theorem digit_ne_dash {x : Char} (h : x.isDigit = true) : x ≠ '-' := by
  have := digit_toNat h
  intro hx
  subst hx
  revert this
  decide

theorem digit_ne_plus {x : Char} (h : x.isDigit = true) : x ≠ '+' := by
  have := digit_toNat h
  intro hx
  subst hx
  revert this
  decide

theorem getnum_two (a b : Char) (rest : List Char) (fixed : Bool)
    (ha : a.isDigit = true) (hb : b.isDigit = true) :
    getnum (a :: b :: rest) fixed = some (digitVal a * 10 + digitVal b, rest) := by
  simp [getnum, ha, hb]

theorem timeAtoi_four (a b c d : Char) (ha : a.isDigit = true) (hb : b.isDigit = true)
    (hc : c.isDigit = true) (hd : d.isDigit = true) :
    timeAtoi [a, b, c, d] =
      some ((((digitVal a * 10 + digitVal b) * 10 + digitVal c) * 10 + digitVal d : Nat) : Int) := by
  simp [timeAtoi, digit_ne_plus ha, digit_ne_dash ha, ha, hb, hc, hd, digitsVal]

theorem timeParse_ipa_stamp (y1 y2 y3 y4 m1 m2 d1 d2 h1 h2 n1 n2 s1 s2 : Char)
    (hy1 : y1.isDigit = true) (hy2 : y2.isDigit = true) (hy3 : y3.isDigit = true)
    (hy4 : y4.isDigit = true) (hm1 : m1.isDigit = true) (hm2 : m2.isDigit = true)
    (hd1 : d1.isDigit = true) (hd2 : d2.isDigit = true) (hh1 : h1.isDigit = true)
    (hh2 : h2.isDigit = true) (hn1 : n1.isDigit = true) (hn2 : n2.isDigit = true)
    (hs1 : s1.isDigit = true) (hs2 : s2.isDigit = true)
    (hmonth : 1 ≤ digitVal m1 * 10 + digitVal m2 ∧ digitVal m1 * 10 + digitVal m2 ≤ 12)
    (hday : 1 ≤ digitVal d1 * 10 + digitVal d2 ∧
      digitVal d1 * 10 + digitVal d2 ≤ daysIn (digitVal m1 * 10 + digitVal m2)
        (((digitVal y1 * 10 + digitVal y2) * 10 + digitVal y3) * 10 + digitVal y4))
    (hhour : digitVal h1 * 10 + digitVal h2 < 24)
    (hmin : digitVal n1 * 10 + digitVal n2 < 60)
    (hsec : digitVal s1 * 10 + digitVal s2 < 60) :
    timeParse layoutIpaDir (String.mk
      [y1, y2, y3, y4, '-', m1, m2, '-', d1, d2, ' ', h1, h2, '-', n1, n2, '-', s1, s2]) =
    some ⟨((digitVal y1 * 10 + digitVal y2) * 10 + digitVal y3) * 10 + digitVal y4,
      digitVal m1 * 10 + digitVal m2, digitVal d1 * 10 + digitVal d2,
      digitVal h1 * 10 + digitVal h2, digitVal n1 * 10 + digitVal n2,
      digitVal s1 * 10 + digitVal s2, 0⟩ := by
  have hm0 : ¬ (digitVal m1 * 10 + digitVal m2 = 0) := by omega
  have hm12 : ¬ (12 < digitVal m1 * 10 + digitVal m2) := by omega
  have hh24 : ¬ (24 ≤ digitVal h1 * 10 + digitVal h2) := by omega
  have hn60 : ¬ (60 ≤ digitVal n1 * 10 + digitVal n2) := by omega
  have hs60 : ¬ (60 ≤ digitVal s1 * 10 + digitVal s2) := by omega
  have hd0 : ¬ (digitVal d1 * 10 + digitVal d2 < 1) := by omega
  have hdin : ¬ (daysIn (digitVal m1 * 10 + digitVal m2)
        (((digitVal y1 * 10 + digitVal y2) * 10 + digitVal y3) * 10 + digitVal y4) <
          digitVal d1 * 10 + digitVal d2) := by omega
  simp [timeParse, layoutIpaDir, parseChunks, skip, parseStd,
    timeAtoi_four y1 y2 y3 y4 hy1 hy2 hy3 hy4,
    getnum_two _ _ _ _ hm1 hm2, getnum_two _ _ _ _ hd1 hd2, getnum_two _ _ _ _ hh1 hh2,
    getnum_two _ _ _ _ hn1 hn2, getnum_two _ _ _ _ hs1 hs2, hy1,
    hm0, hm12, hh24, hn60, hs60, hd0, hdin, cutspace, digit_ne_space hh1, parseFraction]
  have hcast : ((((digitVal y1 : Int) * 10 + digitVal y2) * 10 + digitVal y3) * 10 +
      digitVal y4).toNat = ((digitVal y1 * 10 + digitVal y2) * 10 + digitVal y3) * 10 +
        digitVal y4 := by omega
  rw [hcast]
  exact ⟨hday.2, rfl⟩

theorem lexGt_irrefl : ∀ (a : List Nat), lexGt a a = false := by
  intro a
  induction a with
  | nil => rfl
  | cons x rest ih => simp [lexGt, ih]

theorem lexGt_asymm : ∀ (a b : List Nat), lexGt a b = true → lexGt b a = false := by
  intro a
  induction a with
  | nil => intro b h; simp [lexGt] at h
  | cons x as ih =>
    intro b h
    cases b with
    | nil => simp [lexGt] at h
    | cons y bs =>
      simp only [lexGt] at h ⊢
      by_cases h1 : x > y
      · have h2 : ¬ y > x := by omega
        have h3 : y < x := h1
        simp [h2, h3]
      · by_cases h2 : x < y
        · simp [h1, h2] at h
        · have hxy : x = y := by omega
          subst hxy
          simp only [gt_iff_lt, lt_self_iff_false, if_false] at h ⊢
          exact ih bs h

theorem lexGt_neg_trans : ∀ (a b c : List Nat), a.length = b.length → b.length = c.length →
    lexGt a b = false → lexGt b c = false → lexGt a c = false := by
  intro a
  induction a with
  | nil => intro b c _ _ _ _; cases c <;> rfl
  | cons x as ih =>
    intro b c hab hbc h1 h2
    cases b with
    | nil => simp at hab
    | cons y bs =>
      cases c with
      | nil => simp at hbc
      | cons z cs =>
        simp only [List.length_cons, Nat.add_right_cancel_iff] at hab hbc
        simp only [lexGt] at h1 h2 ⊢
        by_cases hxy : x > y
        · simp [hxy] at h1
        · by_cases hyz : y > z
          · simp [hyz] at h2
          · by_cases hxy2 : x < y
            · have : ¬ x > z := by omega
              have h3 : x < z := by omega
              simp [this, h3]
            · have hxy3 : x = y := by omega
              subst hxy3
              by_cases hyz2 : x < z
              · have : ¬ x > z := by omega
                simp [this, hyz2]
              · have hxz : x = z := by omega
                subst hxz
                simp only [gt_iff_lt, lt_self_iff_false, if_false] at h1 h2 ⊢
                exact ih bs cs hab hbc h1 h2

theorem insertLeft_spec (less : String → String → Outcome Bool) (k : String → List Nat)
    (M : List String)
    (hless : ∀ x ∈ M, ∀ y ∈ M, less x y = .ok (lexGt (k x) (k y)))
    (x : String) (hx : x ∈ M) :
    ∀ (done : List String), (∀ y ∈ done, y ∈ M) →
      ∃ r, insertLeft less x done = .ok r ∧
        ((r = done ++ [x] ∧ ∀ y ∈ done, lexGt (k x) (k y) = true) ∨
         (∃ pre p post, done = pre ++ p :: post ∧ r = pre ++ x :: p :: post ∧
            lexGt (k x) (k p) = false)) := by
  intro done
  induction done with
  | nil => intro _; exact ⟨[x], rfl, Or.inl ⟨rfl, by simp⟩⟩
  | cons p ps ih =>
    intro hd
    have hp : p ∈ M := hd p (List.mem_cons_self _ _)
    have hps : ∀ y ∈ ps, y ∈ M := fun y hy => hd y (List.mem_cons_of_mem _ hy)
    have hl := hless x hx p hp
    cases hg : lexGt (k x) (k p) with
    | false =>
      refine ⟨x :: p :: ps, ?_, Or.inr ⟨[], p, ps, rfl, rfl, hg⟩⟩
      simp [insertLeft, hl, hg]
    | true =>
      obtain ⟨r, hr, hcase⟩ := ih hps
      refine ⟨p :: r, ?_, ?_⟩
      · simp [insertLeft, hl, hg, hr]
      · rcases hcase with ⟨hr2, hall⟩ | ⟨pre, q, post, hdone, hr2, hq⟩
        · left
          refine ⟨by simp [hr2], ?_⟩
          intro y hy
          rcases List.mem_cons.mp hy with h | h
          · subst h; exact hg
          · exact hall y h
        · right
          exact ⟨p :: pre, q, post, by simp [hdone], by simp [hr2], hq⟩

theorem digitChar_spec (n : Nat) :
    (digitChar n).isDigit = true ∧ digitVal (digitChar n) = n % 10 := by
  have h : n % 10 < 10 := Nat.mod_lt _ (by decide)
  unfold digitChar
  generalize n % 10 = m at h
  interval_cases m <;> exact ⟨by decide, by decide⟩

theorem strconvAtoi_digits (ds : List Char) (hne : ds ≠ [])
    (hds : ∀ x ∈ ds, x.isDigit = true) (hlt : digitsVal ds < 2 ^ 63) :
    strconvAtoi (String.mk ds) = some (digitsVal ds : Int) := by
  cases ds with
  | nil => exact absurd rfl hne
  | cons d rest =>
    have hd := hds d (List.mem_cons_self _ _)
    have hall : (d :: rest).all Char.isDigit = true := by
      rw [List.all_eq_true]
      exact hds
    simp only [strconvAtoi, List.head?_cons, Option.some.injEq, digit_ne_plus hd,
      digit_ne_dash hd, or_self, if_false, decide_False, hall, not_true_eq_false,
      reduceCtorEq, Bool.false_eq_true]
    have h63 : (2 : Nat) ^ 63 = 9223372036854775808 := by norm_num
    rw [h63] at hlt
    simp [hlt]

theorem lexGt_snoc : ∀ (a b : List Nat) (x y : Nat), a.length = b.length →
    lexGt (a ++ [x]) (b ++ [y]) = (lexGt a b || (decide (a = b) && decide (x > y))) := by
  intro a
  induction a with
  | nil =>
    intro b x y h
    have hb : b = [] := List.length_eq_zero.mp h.symm
    subst hb
    by_cases hxy : x > y
    · simp [lexGt, hxy]
    · simp [lexGt, hxy]
  | cons p as ih =>
    intro b x y h
    cases b with
    | nil => simp at h
    | cons q bs =>
      simp only [List.length_cons, Nat.add_right_cancel_iff] at h
      simp only [List.cons_append, lexGt, List.cons.injEq]
      by_cases h1 : p > q
      · simp [h1]
      · by_cases h2 : p < q
        · have : ¬ p = q := by omega
          simp [h1, h2, this]
        · have hpq : p = q := by omega
          subst hpq
          simp [ih bs x y h]

/-- The closing comparisons on two parsed directory names decide "greater
(time stamp, suffix) pair". -/
theorem compareDatesCounts_key (a b : IpaDir) :
    compareDatesCounts
      [⟨a.year, a.month, a.day, a.hour, a.min, a.sec, 0⟩,
       ⟨b.year, b.month, b.day, b.hour, b.min, b.sec, 0⟩]
      [(digitsVal a.suffix : Int), (digitsVal b.suffix : Int)] =
    .ok (lexGt a.key b.key) := by
  have h1 := lexGt_snoc [a.year, a.month, a.day, a.hour, a.min, a.sec]
    [b.year, b.month, b.day, b.hour, b.min, b.sec] 0 0 rfl
  have h2 := lexGt_snoc [a.year, a.month, a.day, a.hour, a.min, a.sec]
    [b.year, b.month, b.day, b.hour, b.min, b.sec] (digitsVal a.suffix) (digitsVal b.suffix) rfl
  simp only [List.cons_append, List.nil_append, gt_iff_lt, lt_self_iff_false, decide_False,
    Bool.and_false, Bool.or_false] at h1 h2
  simp only [compareDatesCounts, List.getElem?_cons_zero, List.getElem?_cons_succ,
    GoTime.after, GoTime.fields, GoTime.equal, IpaDir.key, h1, h2]
  cases hgt : lexGt [a.year, a.month, a.day, a.hour, a.min, a.sec]
      [b.year, b.month, b.day, b.hour, b.min, b.sec] with
  | true => simp
  | false =>
    by_cases heq : [a.year, a.month, a.day, a.hour, a.min, a.sec] =
        [b.year, b.month, b.day, b.hour, b.min, b.sec]
    · have heq2 := heq
      simp only [List.cons.injEq, and_true] at heq2
      obtain ⟨e1, e2, e3, e4, e5, e6⟩ := heq2
      by_cases hc : digitsVal b.suffix < digitsVal a.suffix
      · simp [e1, e2, e3, e4, e5, e6, hc]
      · simp [e1, e2, e3, e4, e5, e6, hc]
    · have hne : ¬ (GoTime.mk a.year a.month a.day a.hour a.min a.sec 0 =
          GoTime.mk b.year b.month b.day b.hour b.min b.sec 0) := by
        intro h
        apply heq
        simp only [GoTime.mk.injEq] at h
        obtain ⟨e1, e2, e3, e4, e5, e6, _⟩ := h
        simp [e1, e2, e3, e4, e5, e6]
      simp [heq, hne]

theorem pad2_val (n : Nat) (h : n < 100) :
    digitVal (digitChar (n / 10)) * 10 + digitVal (digitChar n) = n := by
  rw [(digitChar_spec _).2, (digitChar_spec _).2]
  omega

theorem pad4_val (n : Nat) (h : n < 10000) :
    ((digitVal (digitChar (n / 1000)) * 10 + digitVal (digitChar (n / 100))) * 10 +
      digitVal (digitChar (n / 10))) * 10 + digitVal (digitChar n) = n := by
  rw [(digitChar_spec _).2, (digitChar_spec _).2, (digitChar_spec _).2, (digitChar_spec _).2]
  omega

theorem daysIn_le (month year : Nat) : daysIn month year ≤ 31 := by
  unfold daysIn
  split_ifs <;> omega

/-- One step of the loop of `ByIpaDate.Less` on a well-formed directory name
appends its time stamp and its suffix. -/
theorem dateCountStep_ipaDir (d : IpaDir) (hw : d.wellFormed = true)
    (dates : List GoTime) (counts : List Int) :
    dateCountStep ipaDateRE 2 layoutIpaDir d.text dates counts =
      some (dates ++ [⟨d.year, d.month, d.day, d.hour, d.min, d.sec, 0⟩],
        counts ++ [(digitsVal d.suffix : Int)]) := by
  simp only [IpaDir.wellFormed, Bool.and_eq_true, decide_eq_true_eq, List.all_eq_true] at hw
  obtain ⟨⟨⟨⟨⟨⟨⟨⟨⟨⟨hname, hy⟩, hm1⟩, hm12⟩, hd1⟩, hdin⟩, hh⟩, hmi⟩, hs⟩, hsuf⟩, hlt⟩ := hw
  have hname2 : ∀ x ∈ d.name.data, x ≠ '\n' := fun x hx => hname x hx
  have hd31 := daysIn_le d.month d.year
  have dg := fun n => (digitChar_spec n).1
  have hsub := ipa_submatch (digitChar (d.year / 1000)) (digitChar (d.year / 100))
    (digitChar (d.year / 10)) (digitChar d.year) (digitChar (d.month / 10)) (digitChar d.month)
    (digitChar (d.day / 10)) (digitChar d.day) (digitChar (d.hour / 10)) (digitChar d.hour)
    (digitChar (d.min / 10)) (digitChar d.min) (digitChar (d.sec / 10)) (digitChar d.sec)
    (dg _) (dg _) (dg _) (dg _) (dg _) (dg _) (dg _) (dg _) (dg _) (dg _) (dg _) (dg _)
    (dg _) (dg _) d.suffix hsuf d.name.data hname2
  have hparse := timeParse_ipa_stamp (digitChar (d.year / 1000)) (digitChar (d.year / 100))
    (digitChar (d.year / 10)) (digitChar d.year) (digitChar (d.month / 10)) (digitChar d.month)
    (digitChar (d.day / 10)) (digitChar d.day) (digitChar (d.hour / 10)) (digitChar d.hour)
    (digitChar (d.min / 10)) (digitChar d.min) (digitChar (d.sec / 10)) (digitChar d.sec)
    (dg _) (dg _) (dg _) (dg _) (dg _) (dg _) (dg _) (dg _) (dg _) (dg _) (dg _) (dg _)
    (dg _) (dg _)
    (by rw [pad2_val _ (by omega)]; exact ⟨hm1, hm12⟩)
    (by rw [pad2_val _ (by omega), pad2_val _ (by omega), pad4_val _ hy]; exact ⟨hd1, hdin⟩)
    (by rw [pad2_val _ (by omega)]; exact hh)
    (by rw [pad2_val _ (by omega)]; exact hmi)
    (by rw [pad2_val _ (by omega)]; exact hs)
  rw [pad4_val _ hy, pad2_val _ (by omega), pad2_val _ (by omega), pad2_val _ (by omega),
    pad2_val _ (by omega), pad2_val _ (by omega)] at hparse
  have htext : d.text = String.mk (d.name.data ++ ' ' ::
      ([digitChar (d.year / 1000), digitChar (d.year / 100), digitChar (d.year / 10),
        digitChar d.year, '-', digitChar (d.month / 10), digitChar d.month, '-',
        digitChar (d.day / 10), digitChar d.day, ' ', digitChar (d.hour / 10),
        digitChar d.hour, '-', digitChar (d.min / 10), digitChar d.min, '-',
        digitChar (d.sec / 10), digitChar d.sec] ++ sufText d.suffix)) := rfl
  unfold dateCountStep
  rw [htext, hsub]
  simp only [List.length_cons, List.length_nil, List.getD_cons_zero, List.getD_cons_succ,
    hparse, Nat.reduceAdd, if_true]
  by_cases hnil : d.suffix = []
  · simp [hnil, digitsVal]
  · have hne : String.mk d.suffix ≠ "" := by
      intro h
      apply hnil
      have := congrArg String.data h
      simpa using this
    simp only [ne_eq, hne, not_false_eq_true, if_true,
      strconvAtoi_digits d.suffix hnil hsuf hlt]

/-- On two paths in well-formed directories `ByIpaDate.Less` returns whether
the first has the greater (time stamp, suffix) pair. -/
theorem ipaLess_key (p q : String) (dp dq : IpaDir)
    (hp : dp.wellFormed = true ∧ filepathBase (filepathDir p) = dp.text)
    (hq : dq.wellFormed = true ∧ filepathBase (filepathDir q) = dq.text) :
    ipaLess p q = .ok (lexGt dp.key dq.key) := by
  unfold ipaLess mustCompile
  rw [regexpCompile_ipaDatePattern]
  simp only [ipaDirLoop, hp.2, hq.2, dateCountStep_ipaDir dp hp.1, dateCountStep_ipaDir dq hq.1,
    List.nil_append, List.cons_append]
  exact compareDatesCounts_key dp dq

/-- In a list where no element is less (in the comparator's sense, that is,
of greater key) than its predecessor, no element has a greater key than the
first. -/
theorem chain_head_max (less : String → String → Outcome Bool) (k : String → List Nat)
    (n : Nat) :
    ∀ (tl : List String) (b : String), (∀ y ∈ b :: tl, (k y).length = n) →
      (∀ x ∈ b :: tl, ∀ y ∈ b :: tl, less x y = .ok (lexGt (k x) (k y))) →
      List.Chain (fun a c => less c a = .ok false) b tl →
      ∀ y ∈ b :: tl, lexGt (k y) (k b) = false := by
  intro tl
  induction tl with
  | nil =>
    intro b _ _ _ y hy
    rw [List.mem_singleton] at hy
    subst hy
    exact lexGt_irrefl _
  | cons c tl ih =>
    intro b hlen hless hchain y hy
    rw [List.chain_cons] at hchain
    have hcm : c ∈ b :: c :: tl := List.mem_cons_of_mem _ (List.mem_cons_self _ _)
    have hbm : b ∈ b :: c :: tl := List.mem_cons_self _ _
    have hcb : lexGt (k c) (k b) = false := by
      have h1 := hless c hcm b hbm
      rw [hchain.1] at h1
      injection h1 with h2
      exact h2.symm
    rcases List.mem_cons.mp hy with h | h
    · subst h
      exact lexGt_irrefl _
    · have hc := ih c (fun z hz => hlen z (List.mem_cons_of_mem _ hz))
        (fun x hx z hz => hless x (List.mem_cons_of_mem _ hx) z (List.mem_cons_of_mem _ hz))
        hchain.2 y h
      exact lexGt_neg_trans _ _ _
        ((hlen y (List.mem_cons_of_mem _ h)).trans (hlen c hcm).symm)
        ((hlen c hcm).trans (hlen b hbm).symm) hc hcb

/-- C4 fails as stated, in four ways.  A suffix of 2^63 overflows
`strconv.Atoi`, and the directory without suffix is returned before the one
with the greater suffix.  A name with a line break hides the time stamp from
the pattern, and the 2016 directory is returned before the 2017 one.  A
month 13 is a parse error, and that directory stays first.  An assembly name
that is no regular expression makes `exportLatestIpa` panic. -/
theorem exportLatestIpa_not_maximal :
    exportLatestIpa "o/*/*.ipa"
      (.ok ["o/App 2016-10-06 11-45-23/App.ipa",
            "o/App 2016-10-06 11-45-23 9223372036854775808/App.ipa"]) "App" =
      .ok ("o/App 2016-10-06 11-45-23/App.ipa", none) ∧
    exportLatestIpa "o/*/*.ipa"
      (.ok ["o/A 1-1-1 1-1-1\nB 2016-10-06 11-45-23/App.ipa",
            "o/App 2017-01-01 00-00-00/App.ipa"]) "Zed" =
      .ok ("o/A 1-1-1 1-1-1\nB 2016-10-06 11-45-23/App.ipa", none) ∧
    exportLatestIpa "o/*/*.ipa"
      (.ok ["o/App 2016-13-01 00-00-00/App.ipa",
            "o/App 2017-01-01 00-00-00/App.ipa"]) "App" =
      .ok ("o/App 2016-13-01 00-00-00/App.ipa", none) ∧
    exportLatestIpa "o/*/*.ipa" (.ok ["o/App( 2016-10-06 11-45-23/App(.ipa"]) "App(" =
      .panic := by
  refine ⟨?_, ?_, ?_, ?_⟩ <;> decide

/-- C5 at a failing input: the first path lies in the earlier directory
2016-10-07, and `ByArchiveDate.Less` still returns true, because its file
name carries the later date. -/
theorem archiveLess_true_for_earlier_directory :
    archiveLess "A/2016-10-07/App 10-09-17 3.41 PM.xcarchive"
      "A/2017-10-09/App 10-07-16 3.41 PM.xcarchive" = .ok true := by
  decide

/-- C6 at failing inputs: for file names with `AM` the pattern captures only
`AM` as the date, which does not parse, and `ByArchiveDate.Less` is false
both for the greater suffix and for the later time of day. -/
theorem archiveLess_false_for_AM_names :
    (match regexpCompile archiveDatePattern with
      | .ok (re, n) => findStringSubmatch re n "App 10-07-16 3.41 AM 2.xcarchive"
      | .error _ => []) = ["App 10-07-16 3.41 AM 2.xcarchive", "AM", "2"] ∧
    archiveLess "A/2016-10-07/App 10-07-16 3.41 AM 2.xcarchive"
      "A/2016-10-07/App 10-07-16 3.41 AM.xcarchive" = .ok false ∧
    archiveLess "A/2016-10-07/App 10-07-16 9.41 AM.xcarchive"
      "A/2016-10-07/App 10-07-16 3.41 AM.xcarchive" = .ok false := by
  refine ⟨?_, ?_, ?_⟩ <;> decide

/-- C7 at failing inputs: when a name does not match the date pattern nothing
is appended for it, and both comparators panic on the index expression; the
sort and the resolver abort with them. -/
theorem comparators_panic_without_date :
    archiveLess "A/2016-10-07/App.xcarchive" "A/2017-10-09/App.xcarchive" = .panic ∧
    ipaLess "o/Release/App.ipa" "o/Debug/App.ipa" = .panic ∧
    sortSort ipaLess ["o/Release/App.ipa", "o/Debug/App.ipa"] = .panic ∧
    exportLatestIpa "o/*/*.ipa" (.ok ["o/Release/App.ipa", "o/Debug/App.ipa"]) "App" =
      .panic := by
  refine ⟨?_, ?_, ?_, ?_⟩ <;> decide

/-- C8 at the failing input, and its siblings: with an empty glob and the
assembly name `Foo(`, `exportApk` panics in `regexp.MustCompile`, which it
calls before it looks at the glob; the other five resolvers return the empty
path and a nil error for every assembly name. -/
theorem exportApk_empty_glob_panics :
    exportApk (.ok []) "Foo(" = .panic ∧
    ∀ (pattern assemblyName : String),
      exportLatestXCArchive pattern (.ok []) assemblyName = .ok ("", none) ∧
      exportLatestIpa pattern (.ok []) assemblyName = .ok ("", none) ∧
      exportAppDSYM pattern (.ok []) assemblyName = .ok ("", none) ∧
      exportPKG pattern (.ok []) assemblyName = .ok ("", none) ∧
      exportApp pattern (.ok []) assemblyName = .ok ("", none) := by
  constructor
  · decide
  · intro pattern assemblyName
    exact ⟨rfl, rfl, rfl, rfl, rfl⟩

theorem asciiLower_cases : ∀ n : Fin 128,
    ((if 65 ≤ (Char.ofNat n.val).toNat ∧ (Char.ofNat n.val).toNat ≤ 90
        then Char.ofNat ((Char.ofNat n.val).toNat + 32) else Char.ofNat n.val) = 'a' ↔
      (Char.ofNat n.val = 'a' ∨ Char.ofNat n.val = 'A')) ∧
    ((if 65 ≤ (Char.ofNat n.val).toNat ∧ (Char.ofNat n.val).toNat ≤ 90
        then Char.ofNat ((Char.ofNat n.val).toNat + 32) else Char.ofNat n.val) = 'r' ↔
      (Char.ofNat n.val = 'r' ∨ Char.ofNat n.val = 'R')) ∧
    ((if 65 ≤ (Char.ofNat n.val).toNat ∧ (Char.ofNat n.val).toNat ≤ 90
        then Char.ofNat ((Char.ofNat n.val).toNat + 32) else Char.ofNat n.val) = 'm' ↔
      (Char.ofNat n.val = 'm' ∨ Char.ofNat n.val = 'M')) := by
  decide

theorem unicodeToLower_arm (table : Char → Char)
    (htable : ∀ c : Char, 127 < c.toNat → table c ≠ 'a' ∧ table c ≠ 'r' ∧ table c ≠ 'm')
    (c : Char) :
    (unicodeToLower table c = 'a' ↔ (c = 'a' ∨ c = 'A')) ∧
    (unicodeToLower table c = 'r' ↔ (c = 'r' ∨ c = 'R')) ∧
    (unicodeToLower table c = 'm' ↔ (c = 'm' ∨ c = 'M')) := by
  unfold unicodeToLower
  by_cases h : c.toNat ≤ 127
  · have hc := asciiLower_cases ⟨c.toNat, by omega⟩
    simp only [Char.ofNat_toNat] at hc
    simp only [h, if_true]
    exact hc
  · have ht := htable c (by omega)
    simp only [h, if_false]
    refine ⟨⟨fun e => absurd e ht.1, ?_⟩, ⟨fun e => absurd e ht.2.1, ?_⟩,
      ⟨fun e => absurd e ht.2.2, ?_⟩⟩ <;>
    · intro hc
      exfalso
      apply h
      rcases hc with e | e <;> subst e <;> decide

theorem hasPrefix_arm_iff (table : Char → Char)
    (htable : ∀ c : Char, 127 < c.toNat → table c ≠ 'a' ∧ table c ≠ 'r' ∧ table c ≠ 'm')
    (arch : String) :
    stringsHasPrefix (stringsToLower table arch) "arm" = true ↔
      armPrefixedIgnoringCase arch = true := by
  have hl := unicodeToLower_arm table htable
  unfold stringsHasPrefix stringsToLower armPrefixedIgnoringCase
  rcases arch with ⟨cs⟩
  rcases cs with _ | ⟨c1, _ | ⟨c2, _ | ⟨c3, rest⟩⟩⟩
  · simp
  · simp
  · simp
  · have e : ("arm" : String).data = ['a', 'r', 'm'] := rfl
    simp only [e, List.map_cons, List.length_cons, List.length_nil, List.take_succ_cons,
      List.take_zero, decide_eq_true_eq, List.cons.injEq, and_true, Bool.and_eq_true,
      Bool.or_eq_true, (hl c1).1, (hl c2).2.1, (hl c3).2.2]
    tauto

/-- C11: `isArchitectureArchiveable` is true exactly when every listed
architecture starts with `arm` in either letter case; so it is true for the
empty list and false as soon as one entry is not ARM-prefixed.  `table` is
the lower-case mapping of the Unicode tables above ASCII, which maps no
character to `a`, `r` or `m`. -/
theorem isArchitectureArchiveable_iff (table : Char → Char)
    (htable : ∀ c : Char, 127 < c.toNat → table c ≠ 'a' ∧ table c ≠ 'r' ∧ table c ≠ 'm')
    (architectures : List String) :
    isArchitectureArchiveable table architectures = true ↔
      ∀ arch ∈ architectures, armPrefixedIgnoringCase arch = true := by
  have hloop : ∀ l : List String, architectureLoop table l = true ↔
      ∀ arch ∈ l, armPrefixedIgnoringCase arch = true := by
    intro l
    induction l with
    | nil => simp [architectureLoop]
    | cons a rest ih =>
      have ha := hasPrefix_arm_iff table htable a
      by_cases hp : stringsHasPrefix (stringsToLower table a) "arm" = true
      · simp [architectureLoop, hp, ih, ha.mp hp]
      · have hn : ¬ armPrefixedIgnoringCase a = true := fun h => hp (ha.mpr h)
        simp [architectureLoop, hp, hn]
  unfold isArchitectureArchiveable
  by_cases hlen : architectures.length = 0
  · have hnil := List.length_eq_zero.mp hlen
    subst hnil
    simp
  · simp only [hlen, if_false]
    exact hloop architectures

/-- Witness of C11 with the identity as table: `ARMv7` and `arm64` are
archiveable, the empty list is, and `x86` next to `armv7` is not. -/
theorem isArchitectureArchiveable_iff_witness :
    isArchitectureArchiveable id ["ARMv7", "arm64"] = true ∧
    isArchitectureArchiveable id [] = true ∧
    isArchitectureArchiveable id ["armv7", "x86"] = false := by
  have hid : ∀ c : Char, 127 < c.toNat → id c ≠ 'a' ∧ id c ≠ 'r' ∧ id c ≠ 'm' := by
    intro c hc
    refine ⟨?_, ?_, ?_⟩ <;>
    · intro e
      simp only [id] at e
      subst e
      revert hc
      decide
  refine ⟨(isArchitectureArchiveable_iff id hid _).mpr (by decide),
    (isArchitectureArchiveable_iff id hid _).mpr (by decide), ?_⟩
  have h := (isArchitectureArchiveable_iff id hid ["armv7", "x86"]).not.mpr (by decide)
  simpa using h

theorem firstOrEmpty_mem (l : List String) (hne : l ≠ []) :
    (firstOrEmpty l).2 = none ∧ (firstOrEmpty l).1 ∈ l := by
  cases l with
  | nil => exact absurd rfl hne
  | cons x rest => exact ⟨rfl, List.mem_cons_self _ _⟩

theorem parseEntries_none_iff (parseSDK : String → Option SDK) (l : List String) :
    parseEntries parseSDK l = none ↔ ∃ e ∈ l, parseSDK e = none := by
  induction l with
  | nil => simp [parseEntries]
  | cons e rest ih =>
    cases he : parseSDK e with
    | none => simp [parseEntries, he]
    | some k =>
      cases hr : parseEntries parseSDK rest with
      | none =>
        have := ih.mp hr
        simp only [parseEntries, he, hr, List.mem_cons, true_iff]
        obtain ⟨x, hx, hx2⟩ := this
        exact ⟨x, Or.inr hx, hx2⟩
      | some ks =>
        simp only [parseEntries, he, hr, List.mem_cons, reduceCtorEq, false_iff]
        rintro ⟨x, hx | hx, hx2⟩
        · subst hx
          rw [he] at hx2
          exact absurd hx2 (by simp)
        · have := ih.mpr ⟨x, hx, hx2⟩
          rw [hr] at this
          exact absurd this (by simp)

theorem whitelistLoop_eq (parseSDK : String → Option SDK) :
    ∀ (items : List (List Char)) (acc : List SDK),
      whitelistLoop parseSDK items acc =
        (parseEntries parseSDK
          ((items.map (fun item => String.mk (stringsTrimSpace item))).filter
            (fun e => decide (e ≠ "")))).map (fun ks => acc ++ ks) := by
  intro items
  induction items with
  | nil => intro acc; simp [whitelistLoop, parseEntries]
  | cons item rest ih =>
    intro acc
    by_cases hi : stringsTrimSpace item = []
    · have hd : decide ((String.mk [] : String) ≠ "") = false := by decide
      simp only [whitelistLoop, hi, if_true, List.map_cons, List.filter_cons, ih acc, hd,
        Bool.false_eq_true, if_false]
    · have he : String.mk (stringsTrimSpace item) ≠ "" := by
        intro h
        apply hi
        have := congrArg String.data h
        simpa using this
      simp only [whitelistLoop, hi, if_false, List.map_cons, List.filter_cons, he,
        ne_eq, not_false_eq_true, decide_True, if_true, parseEntries]
      cases hp : parseSDK (String.mk (stringsTrimSpace item)) with
      | none => simp
      | some k =>
        simp only [ih (acc ++ [k])]
        cases parseEntries parseSDK
          ((rest.map (fun item => String.mk (stringsTrimSpace item))).filter
            (fun e => decide (e ≠ ""))) with
        | none => simp
        | some ks => simp

/-- C12 fails as stated: in `android,,ios` the middle entry is empty and
parses to no platform kind, and the run does not fail; the whitelist is
Android, iOS.  The empty allow-list does not fail either. -/
theorem whitelist_skips_empty_entries :
    specWhitelist parseSDKByName "android,,ios" = none ∧
    parseProjectTypeWhitelist parseSDKByName "android,,ios" = some [.android, .iOS] ∧
    specWhitelist parseSDKByName "" = none ∧
    parseProjectTypeWhitelist parseSDKByName "" = some [] := by
  refine ⟨?_, ?_, ?_, ?_⟩ <;> decide

/-- C12, amended: for every allow-list string and every parse function,
`main` fails before any build exactly when one of the comma-separated
entries, trimmed, is not empty and does not parse; otherwise the whitelist
handed to the builder is the parsed non-empty entries in their order.
Entries that are empty after trimming are skipped. -/
theorem parseProjectTypeWhitelist_nonEmptyEntries (parseSDK : String → Option SDK)
    (s : String) :
    parseProjectTypeWhitelist parseSDK s = parseEntries parseSDK (nonEmptyEntries s) ∧
    (parseProjectTypeWhitelist parseSDK s = none ↔
      ∃ e ∈ trimmedEntries s, e ≠ "" ∧ parseSDK e = none) := by
  have h1 : parseProjectTypeWhitelist parseSDK s =
      parseEntries parseSDK (nonEmptyEntries s) := by
    unfold parseProjectTypeWhitelist nonEmptyEntries trimmedEntries
    by_cases hlen : s.data.length > 0
    · simp only [hlen, if_true, whitelistLoop_eq, List.nil_append]
      cases parseEntries parseSDK
        ((List.map (fun item => String.mk (stringsTrimSpace item)) (splitComma s.data)).filter
          (fun e => decide (e ≠ ""))) <;> rfl
    · have hnil : s.data = [] := by
        cases hd : s.data with
        | nil => rfl
        | cons a b => rw [hd] at hlen; simp at hlen
      simp only [hlen, if_false, hnil]
      rfl
  refine ⟨h1, ?_⟩
  rw [h1, parseEntries_none_iff]
  unfold nonEmptyEntries
  constructor
  · rintro ⟨e, he, hp⟩
    rw [List.mem_filter] at he
    exact ⟨e, he.1, by simpa using he.2, hp⟩
  · rintro ⟨e, he, hne, hp⟩
    exact ⟨e, List.mem_filter.mpr ⟨he, by simpa using hne⟩, hp⟩

theorem parseLoop_dot (fuel : Nat) (t : List Char) (cur : Frame) :
    parseLoop true (fuel + 1) ('.' :: t) [] cur 0 [] =
      parseLoop true fuel t [] (cur.push .any) 0 [] := by
  conv_lhs => unfold parseLoop
  simp

theorem parseLoop_chr (fuel : Nat) (c : Char) (t : List Char) (cur : Frame)
    (hc : plainNameChar c = true) (hdot : c ≠ '.') :
    parseLoop true (fuel + 1) (c :: t) [] cur 0 [] =
      parseLoop true fuel t [] (cur.push (.chr c true)) 0 [] := by
  simp only [plainNameChar, Bool.and_eq_true, decide_eq_true_eq, Bool.not_eq_true',
    List.contains_eq_any_beq, List.any_cons, List.any_nil, Bool.or_false,
    Bool.or_eq_false_iff, beq_eq_false_iff_ne, ne_eq] at hc
  obtain ⟨hlt, h1, h2, h3, h4, h5, h6, h7, h8, h9, h10, h11⟩ := hc
  have h128 : ¬ (128 ≤ c.toNat) := by omega
  conv_lhs => unfold parseLoop
  simp only [h1, h2, h3, h4, h5, h6, h7, h8, h9, h10, h11, hdot, h128, if_false, or_self,
    and_false, false_or, or_false]

theorem parseLoop_plain (rest : List Char) :
    ∀ (lits : List Char) (fuel : Nat) (cur : Frame),
      (∀ c ∈ lits, plainNameChar c = true) →
      parseLoop true (fuel + lits.length) (lits ++ rest) [] cur 0 [] =
        parseLoop true fuel rest []
          ⟨cur.alts, (lits.map plainAtom).reverse ++ cur.items,
            if lits = [] then cur.lastRepeat else false, cur.group⟩ 0 [] := by
  intro lits
  induction lits with
  | nil =>
    intro fuel cur _
    simp
  | cons c cs ih =>
    intro fuel cur h
    have hc := h c (List.mem_cons_self _ _)
    have hcs : ∀ x ∈ cs, plainNameChar x = true := fun x hx => h x (List.mem_cons_of_mem _ hx)
    have hfuel : fuel + (c :: cs).length = (fuel + cs.length) + 1 := by
      simp only [List.length_cons]; omega
    rw [hfuel, List.cons_append]
    by_cases hdot : c = '.'
    · subst hdot
      rw [parseLoop_dot, ih fuel (cur.push .any) hcs]
      simp [Frame.push, plainAtom]
    · rw [parseLoop_chr _ _ _ _ hc hdot, ih fuel (cur.push (.chr c true)) hcs]
      simp [Frame.push, plainAtom, hdot]

theorem parseLoop_star_any (fuel : Nat) (t : List Char) (alts items : List RE)
    (g : Option Nat) (ht : t.head? ≠ some '?') :
    parseLoop true (fuel + 1) ('*' :: t) [] ⟨alts, .any :: items, false, g⟩ 0 [] =
      parseLoop true fuel t [] ⟨alts, .star .any :: items, true, g⟩ 0 [] := by
  conv_lhs => unfold parseLoop
  simp [applyRepeat, ht, nullable]

theorem parseLoop_end (fuel : Nat) (cur : Frame) :
    parseLoop true (fuel + 1) [] [] cur 0 [] = .ok (closeFrame cur, 0) := by
  conv_lhs => unfold parseLoop
  simp

theorem regexpCompile_stage1 (assemblyName : String)
    (hplain : ∀ c ∈ assemblyName.data, plainNameChar c = true)
    (hlen : assemblyName.data.length ≤ 99000) :
    regexpCompile ("(?i)" ++ assemblyName ++ ".*signed.apk") =
      .ok (stage1RE assemblyName.data, 0) := by
  have hdata : ("(?i)" ++ assemblyName ++ ".*signed.apk").data =
      '(' :: '?' :: 'i' :: ')' :: (assemblyName.data ++
        ['.', '*', 's', 'i', 'g', 'n', 'e', 'd', '.', 'a', 'p', 'k']) := by
    simp [String.data_append]
  have hl : ¬ (100000 < ("(?i)" ++ assemblyName ++ ".*signed.apk").data.length) := by
    rw [hdata]
    simp only [List.length_cons, List.length_append, List.length_nil]
    omega
  unfold regexpCompile
  rw [if_neg hl, hdata]
  simp only []
  have hf : (assemblyName.data ++
      ['.', '*', 's', 'i', 'g', 'n', 'e', 'd', '.', 'a', 'p', 'k']).length + 1 =
      13 + assemblyName.data.length := by
    simp only [List.length_append, List.length_cons, List.length_nil]
    omega
  rw [hf, parseLoop_plain _ _ _ _ hplain]
  simp only [Frame.push]
  rw [parseLoop_dot]
  simp only [Frame.push]
  rw [parseLoop_star_any _ _ _ _ _ (by decide),
    parseLoop_chr _ 's' _ _ (by decide) (by decide),
    parseLoop_chr _ 'i' _ _ (by decide) (by decide),
    parseLoop_chr _ 'g' _ _ (by decide) (by decide),
    parseLoop_chr _ 'n' _ _ (by decide) (by decide),
    parseLoop_chr _ 'e' _ _ (by decide) (by decide),
    parseLoop_chr _ 'd' _ _ (by decide) (by decide),
    parseLoop_dot,
    parseLoop_chr _ 'a' _ _ (by decide) (by decide),
    parseLoop_chr _ 'p' _ _ (by decide) (by decide),
    parseLoop_chr _ 'k' _ _ (by decide) (by decide),
    parseLoop_end]
  simp [Frame.push, closeFrame, mkAlt, stage1RE]

theorem matchRE_mkCat_cons (a : RE) (rest : List RE) (s : List Char) (caps : Caps) :
    matchRE (mkCat (a :: rest)) s caps =
      (matchRE a s caps).flatMap (fun r => matchRE (mkCat rest) r.1 r.2) := by
  cases rest with
  | nil =>
    simp only [mkCat, matchRE_empty]
    induction matchRE a s caps with
    | nil => rfl
    | cons r l ih => simp [List.flatMap_cons, ← ih]
  | cons b rest2 => rfl

theorem matchRE_plainAtom (c : Char) : matchRE (plainAtom c) = atomStep (plainCharMatches c) := by
  unfold plainAtom
  by_cases h : c = '.'
  · simp only [h, if_true, matchRE_any_eq]
    funext s caps
    simp [atomStep, plainCharMatches]
  · simp only [h, if_false, matchRE_chr_eq]
    funext s caps
    simp [atomStep, plainCharMatches, h]

theorem plainTextMatches_length : ∀ (cs x : List Char), plainTextMatches cs x = true →
    x.length = cs.length := by
  intro cs
  induction cs with
  | nil => intro x h; cases x with
    | nil => rfl
    | cons a b => simp [plainTextMatches] at h
  | cons c cs ih => intro x h; cases x with
    | nil => simp [plainTextMatches] at h
    | cons a b =>
      simp only [plainTextMatches, Bool.and_eq_true] at h
      simp [ih b h.2]

/-- The results of a run of plain pattern characters followed by `rest`: the
input starts with a text that matches the run, and `rest` goes on behind it. -/
theorem mem_matchRE_plain (rest : List RE) (caps : Caps) (r : MState) :
    ∀ (cs s : List Char),
      r ∈ matchRE (mkCat (cs.map plainAtom ++ rest)) s caps ↔
        ∃ x t, s = x ++ t ∧ plainTextMatches cs x = true ∧ r ∈ matchRE (mkCat rest) t caps := by
  intro cs
  induction cs with
  | nil =>
    intro s
    simp only [List.map_nil, List.nil_append]
    constructor
    · intro h
      exact ⟨[], s, rfl, rfl, h⟩
    · rintro ⟨x, t, hs, hx, hr⟩
      cases x with
      | nil => simpa [hs] using hr
      | cons a b => simp [plainTextMatches] at hx
  | cons c cs ih =>
    intro s
    simp only [List.map_cons, List.cons_append, matchRE_mkCat_cons, matchRE_plainAtom]
    cases s with
    | nil =>
      simp only [atomStep, List.flatMap_nil, List.not_mem_nil, false_iff]
      rintro ⟨x, t, hs, hx, _⟩
      cases x with
      | nil => simp [plainTextMatches] at hx
      | cons a b => simp at hs
    | cons a s2 =>
      by_cases hp : plainCharMatches c a = true
      · simp only [atomStep, hp, if_true, List.flatMap_cons, List.flatMap_nil, List.append_nil,
          ih s2]
        constructor
        · rintro ⟨x, t, hs, hx, hr⟩
          exact ⟨a :: x, t, by simp [hs], by simp [plainTextMatches, hp, hx], hr⟩
        · rintro ⟨x, t, hs, hx, hr⟩
          cases x with
          | nil => simp [plainTextMatches] at hx
          | cons a2 x2 =>
            simp only [List.cons_append, List.cons.injEq] at hs
            simp only [plainTextMatches, Bool.and_eq_true] at hx
            exact ⟨x2, t, hs.2, hx.2, hr⟩
      · simp only [atomStep, hp, Bool.false_eq_true, if_false, List.flatMap_nil,
          List.not_mem_nil, false_iff]
        rintro ⟨x, t, hs, hx, _⟩
        cases x with
        | nil => simp [plainTextMatches] at hx
        | cons a2 x2 =>
          simp only [List.cons_append, List.cons.injEq] at hs
          simp only [plainTextMatches, Bool.and_eq_true] at hx
          rw [← hs.1] at hx
          exact hp hx.1

theorem mem_plusRun (p : Char → Bool) (caps : Caps) (r : MState) :
    ∀ (s : List Char), r ∈ plusRun p s caps ↔
      ∃ v, v ≠ [] ∧ s = v ++ r.1 ∧ (∀ x ∈ v, p x = true) ∧ r.2 = caps := by
  intro s
  induction s with
  | nil =>
    simp only [plusRun, List.not_mem_nil, false_iff]
    rintro ⟨v, hv, hs, _⟩
    cases v with
    | nil => exact hv rfl
    | cons a b => simp at hs
  | cons a s2 ih =>
    by_cases hp : p a = true
    · simp only [plusRun, hp, if_true, List.mem_append, List.mem_singleton, ih]
      constructor
      · rintro (⟨v, _, hs, hv, hc⟩ | h)
        · refine ⟨a :: v, by simp, by simp [hs], ?_, hc⟩
          intro x hx
          rcases List.mem_cons.mp hx with e | e
          · rw [e]; exact hp
          · exact hv x e
        · refine ⟨[a], by simp, by simp [h], ?_, by simp [h]⟩
          intro x hx
          rw [List.mem_singleton] at hx
          rw [hx]; exact hp
      · rintro ⟨v, hne, hs, hv, hc⟩
        cases v with
        | nil => exact absurd rfl hne
        | cons b v2 =>
          simp only [List.cons_append, List.cons.injEq] at hs
          cases v2 with
          | nil =>
            right
            rcases r with ⟨r1, r2⟩
            simp only [List.nil_append] at hs
            simp only at hc
            simp [hs.2, hc]
          | cons b2 v3 =>
            left
            exact ⟨b2 :: v3, by simp, hs.2, fun x hx => hv x (List.mem_cons_of_mem _ hx), hc⟩
    · simp only [plusRun, hp, Bool.false_eq_true, if_false, List.not_mem_nil, false_iff]
      rintro ⟨v, hne, hs, hv, _⟩
      cases v with
      | nil => exact hne rfl
      | cons b v2 =>
        simp only [List.cons_append, List.cons.injEq] at hs
        exact hp (by rw [hs.1]; exact hv b (List.mem_cons_self _ _))

theorem mem_starRun (p : Char → Bool) (caps : Caps) (r : MState) (s : List Char) :
    r ∈ starRun p s caps ↔ ∃ v, s = v ++ r.1 ∧ (∀ x ∈ v, p x = true) ∧ r.2 = caps := by
  simp only [starRun, List.mem_append, List.mem_singleton, mem_plusRun]
  constructor
  · rintro (⟨v, _, hs, hv, hc⟩ | h)
    · exact ⟨v, hs, hv, hc⟩
    · exact ⟨[], by simp [h], by simp, by simp [h]⟩
  · rintro ⟨v, hs, hv, hc⟩
    cases v with
    | nil =>
      right
      rcases r with ⟨r1, r2⟩
      simp only [List.nil_append] at hs
      simp only at hc
      simp [hs, hc]
    | cons a v2 => exact Or.inl ⟨a :: v2, by simp, hs, hv, hc⟩

/-- The matches of the compiled stage-1 pattern at the head of an input: the
assembly name, a run without line break, and `signed.apk`, each compared
character by character. -/
theorem mem_matchRE_stage1 (name s : List Char) (caps : Caps) (r : MState) :
    r ∈ matchRE (stage1RE name) s caps ↔
      ∃ x v y, s = x ++ (v ++ (y ++ r.1)) ∧ plainTextMatches name x = true ∧
        (∀ ch ∈ v, ch ≠ '\n') ∧
        plainTextMatches ['s', 'i', 'g', 'n', 'e', 'd', '.', 'a', 'p', 'k'] y = true ∧
        r.2 = caps := by
  have hre : stage1RE name = mkCat (name.map plainAtom ++ (.star .any ::
      (['s', 'i', 'g', 'n', 'e', 'd', '.', 'a', 'p', 'k'].map plainAtom ++ []))) := by
    simp [stage1RE, plainAtom]
  rw [hre, mem_matchRE_plain]
  constructor
  · rintro ⟨x, t, hs, hx, hr⟩
    rw [matchRE_mkCat_cons, List.mem_flatMap] at hr
    obtain ⟨r1, hr1, hr2⟩ := hr
    rw [matchRE_star_any, mem_starRun] at hr1
    obtain ⟨v, ht, hv, hc⟩ := hr1
    rw [mem_matchRE_plain] at hr2
    obtain ⟨y, w, hw, hy, hr3⟩ := hr2
    simp only [mkCat, matchRE_empty, List.mem_singleton] at hr3
    refine ⟨x, v, y, ?_, hx, fun ch hch => by simpa using hv ch hch, hy, ?_⟩
    · rw [hs, ht, hw, hr3]
    · rw [hr3, hc]
  · rintro ⟨x, v, y, hs, hx, hv, hy, hc⟩
    refine ⟨x, v ++ (y ++ r.1), hs, hx, ?_⟩
    rw [matchRE_mkCat_cons, List.mem_flatMap]
    refine ⟨(y ++ r.1, caps), ?_, ?_⟩
    · rw [matchRE_star_any, mem_starRun]
      exact ⟨v, rfl, fun ch hch => by simpa using hv ch hch, rfl⟩
    · rw [mem_matchRE_plain]
      refine ⟨y, r.1, rfl, hy, ?_⟩
      simp only [mkCat, matchRE_empty, List.mem_singleton]
      rcases r with ⟨r1, r2⟩
      simp only at hc
      simp [hc]

theorem findFirst_none (re : RE) : ∀ (s : List Char), findFirst re s = none →
    ∀ u t, s = u ++ t → matchRE re t [] = [] := by
  intro s
  induction s with
  | nil =>
    intro h u t hs
    have ht : t = [] := by
      cases u with
      | nil => simpa using hs.symm
      | cons a b => simp at hs
    subst ht
    simp only [findFirst, Option.map_eq_none'] at h
    cases hm : matchRE re [] [] with
    | nil => rfl
    | cons a b => rw [hm] at h; simp at h
  | cons a s2 ih =>
    intro h u t hs
    simp only [findFirst] at h
    cases hm : (matchRE re (a :: s2) []).head? with
    | some r => rw [hm] at h; simp at h
    | none =>
      rw [hm] at h
      simp only at h
      cases u with
      | nil =>
        simp only [List.nil_append] at hs
        rw [← hs]
        cases hl : matchRE re (a :: s2) [] with
        | nil => rfl
        | cons x y => rw [hl] at hm; simp at hm
      | cons b u2 =>
        simp only [List.cons_append, List.cons.injEq] at hs
        exact ih h u2 t hs.2

theorem findFirst_some (re : RE) : ∀ (s start : List Char) (r : MState),
    findFirst re s = some (start, r) → (∃ u, s = u ++ start) ∧ r ∈ matchRE re start [] := by
  intro s
  induction s with
  | nil =>
    intro start r h
    simp only [findFirst, Option.map_eq_some', Prod.mk.injEq] at h
    obtain ⟨a, ha, hs, hr⟩ := h
    subst hs hr
    exact ⟨⟨[], rfl⟩, List.mem_of_mem_head? ha⟩
  | cons a s2 ih =>
    intro start r h
    simp only [findFirst] at h
    cases hm : (matchRE re (a :: s2) []).head? with
    | some r0 =>
      rw [hm] at h
      simp only [Option.some.injEq, Prod.mk.injEq] at h
      obtain ⟨hs, hr⟩ := h
      subst hs hr
      exact ⟨⟨[], rfl⟩, List.mem_of_mem_head? hm⟩
    | none =>
      rw [hm] at h
      simp only at h
      obtain ⟨⟨u, hu⟩, hr⟩ := ih start r h
      exact ⟨⟨a :: u, by simp [hu]⟩, hr⟩

/-- For an expression whose matches all consume input, `FindString` returns a
non-empty match exactly when the expression matches at some position. -/
theorem findString_ne_empty_iff (re : RE)
    (hshort : ∀ t r, r ∈ matchRE re t [] → r.1.length < t.length) (s : String) :
    findString re s ≠ "" ↔ ∃ u t, s.data = u ++ t ∧ matchRE re t [] ≠ [] := by
  unfold findString
  cases hf : findFirst re s.data with
  | none =>
    simp only [ne_eq, not_true_eq_false, false_iff]
    rintro ⟨u, t, hs, hne⟩
    exact hne (findFirst_none re _ hf u t hs)
  | some v =>
    obtain ⟨start, r⟩ := v
    obtain ⟨⟨u, hu⟩, hr⟩ := findFirst_some re _ start r hf
    have hlt := hshort start r hr
    simp only
    constructor
    · intro _
      exact ⟨u, start, hu, List.ne_nil_of_mem hr⟩
    · intro _ h
      have hd := congrArg String.data h
      simp only at hd
      have hlen := congrArg List.length hd
      simp only [List.length_take, String.data] at hlen
      have : ("" : String).data.length = 0 := rfl
      rw [this] at hlen
      omega

theorem matchesPattern_stage1 (name : List Char) (c : String) :
    matchesPattern (stage1RE name) c = true ↔ pathContainsStage1 name c.data := by
  have hshort : ∀ t r, r ∈ matchRE (stage1RE name) t [] → r.1.length < t.length := by
    intro t r hr
    rw [mem_matchRE_stage1] at hr
    obtain ⟨x, v, y, hs, _, _, hy, _⟩ := hr
    have hl := plainTextMatches_length _ _ hy
    rw [hs]
    simp only [List.length_append, List.length_cons, List.length_nil] at hl ⊢
    omega
  unfold matchesPattern pathContainsStage1
  rw [decide_eq_true_eq, findString_ne_empty_iff _ hshort]
  constructor
  · rintro ⟨u, t, hs, hne⟩
    cases hm : matchRE (stage1RE name) t [] with
    | nil => exact absurd hm hne
    | cons r l =>
      have hr : r ∈ matchRE (stage1RE name) t [] := by rw [hm]; exact List.mem_cons_self _ _
      rw [mem_matchRE_stage1] at hr
      obtain ⟨x, v, y, ht, hx, hv, hy, _⟩ := hr
      exact ⟨u, x, v, y, r.1, by rw [hs, ht], hx, hv, hy⟩
  · rintro ⟨u, x, v, y, w, hs, hx, hv, hy⟩
    refine ⟨u, x ++ (v ++ (y ++ w)), hs, ?_⟩
    have hr : ((w, []) : MState) ∈ matchRE (stage1RE name) (x ++ (v ++ (y ++ w))) [] := by
      rw [mem_matchRE_stage1]
      exact ⟨x, v, y, rfl, hx, hv, hy, rfl⟩
    exact List.ne_nil_of_mem hr

/-- C13 fails as stated: with the assembly name `Foo` the candidate
`Foo/bin/Bar-signed.apk` is kept at stage 1 although its file name
`Bar-signed.apk`, which alone is not kept, does not contain `Foo`; the
directory `Foo` makes it pass, and `exportApk` returns it in place of
`Foo/bin/Foo.apk`. -/
theorem exportApkStage1_kept_by_directory :
    exportApkStage1 ["Foo/bin/Bar-signed.apk"] "Foo" = .ok ["Foo/bin/Bar-signed.apk"] ∧
    filepathBase "Foo/bin/Bar-signed.apk" = "Bar-signed.apk" ∧
    exportApkStage1 ["Bar-signed.apk"] "Foo" = .ok [] ∧
    exportApk (.ok ["Foo/bin/Foo.apk", "Foo/bin/Bar-signed.apk"]) "Foo" =
      .ok ("Foo/bin/Bar-signed.apk", none) := by
  refine ⟨?_, ?_, ?_, ?_⟩ <;> decide

/-- C13, amended: the stage-1 filter of `exportApk` selects on the whole
path.  For every assembly name of plain characters (ASCII, none of
`\ + * ? ( ) | [ { ^ $`, a dot standing for any character; at most 99000
characters) a candidate is kept at stage 1 exactly when its path contains,
ignoring case, the assembly name followed later, before any line break, by
`signed`, one character and `apk`; directory components take part like the
file name.  The first candidate kept is what `exportApk` returns. -/
theorem exportApkStage1_keeps_iff (apks : List String) (assemblyName : String)
    (hplain : ∀ c ∈ assemblyName.data, plainNameChar c = true)
    (hlen : assemblyName.data.length ≤ 99000) :
    ∃ kept, exportApkStage1 apks assemblyName = .ok kept ∧
      (∀ c, c ∈ kept ↔ c ∈ apks ∧ pathContainsStage1 assemblyName.data c.data) ∧
      (∀ first rest, kept = first :: rest →
        exportApk (.ok apks) assemblyName = .ok (first, none)) := by
  have hc := regexpCompile_stage1 assemblyName hplain hlen
  refine ⟨apks.filter (matchesPattern (stage1RE assemblyName.data)), ?_, ?_, ?_⟩
  · unfold exportApkStage1 mustCompile
    simp only [hc, filterByPattern_eq_filter]
  · intro c
    rw [List.mem_filter, matchesPattern_stage1]
  · intro first rest hk
    unfold exportApk mustCompile
    simp only [hc, filterByPattern_eq_filter, hk, List.length_cons, Nat.add_one_ne_zero,
      if_false]
    rfl

/-- Witness of C13 at the assembly name `Foo` and the candidate
`Foo/bin/Bar-signed.apk`. -/
theorem exportApkStage1_keeps_iff_witness :
    ∃ kept, exportApkStage1 ["Foo/bin/Bar-signed.apk"] "Foo" = .ok kept ∧
      (∀ c, c ∈ kept ↔ c ∈ ["Foo/bin/Bar-signed.apk"] ∧
        pathContainsStage1 "Foo".data c.data) ∧
      (∀ first rest, kept = first :: rest →
        exportApk (.ok ["Foo/bin/Bar-signed.apk"]) "Foo" = .ok (first, none)) :=
  exportApkStage1_keeps_iff ["Foo/bin/Bar-signed.apk"] "Foo" (by decide) (by decide)

theorem mustCompileWith_modelLib {α : Type} (pattern : String) (k : RE → Outcome α) :
    mustCompileWith modelLib pattern k = mustCompile pattern (fun re _ => k re) := by
  unfold mustCompileWith mustCompile modelLib
  cases h : regexpCompile pattern with
  | error e => cases e <;> simp [h]
  | ok v => obtain ⟨re, n⟩ := v; simp [h]

theorem filterWith_modelLib (re : RE) (xs : List String) :
    filterWith modelLib re xs = filterByPattern re xs := by
  induction xs with
  | nil => rfl
  | cons x rest ih =>
    show (if findString re x ≠ "" then x :: filterWith modelLib re rest
      else filterWith modelLib re rest) = _
    rw [ih]
    rfl

/-- The resolvers of the first part of this file are the resolvers over the
model library. -/
theorem resolvers_modelLib (pattern assemblyName : String)
    (glob : Except String (List String)) :
    exportApkWith modelLib glob assemblyName = exportApk glob assemblyName ∧
    exportLatestXCArchiveWith modelLib pattern glob assemblyName =
      exportLatestXCArchive pattern glob assemblyName ∧
    exportLatestIpaWith modelLib pattern glob assemblyName =
      exportLatestIpa pattern glob assemblyName ∧
    exportAppDSYMWith modelLib pattern glob assemblyName =
      exportAppDSYM pattern glob assemblyName ∧
    exportPKGWith modelLib pattern glob assemblyName = exportPKG pattern glob assemblyName ∧
    exportAppWith modelLib pattern glob assemblyName = exportApp pattern glob assemblyName := by
  have hfirst : ∀ what rePattern, exportFirstWith modelLib what pattern glob rePattern =
      exportFirst what pattern glob rePattern := by
    intro what rePattern
    unfold exportFirstWith exportFirst
    simp only [mustCompileWith_modelLib, filterWith_modelLib]
  have hlatest : ∀ what less rePattern,
      exportLatestWith modelLib what pattern less glob rePattern =
        exportLatest what pattern less glob rePattern := by
    intro what less rePattern
    unfold exportLatestWith exportLatest
    simp only [mustCompileWith_modelLib, filterWith_modelLib]
    rfl
  refine ⟨?_, hlatest _ _ _, hlatest _ _ _, hfirst _ _, hfirst _ _, hfirst _ _⟩
  unfold exportApkWith exportApk
  simp only [mustCompileWith_modelLib, filterWith_modelLib]

theorem insertLeft_perm (less : String → String → Outcome Bool) (x : String) :
    ∀ (done r : List String), insertLeft less x done = .ok r → r.Perm (x :: done) := by
  intro done
  induction done with
  | nil =>
    intro r h
    simp only [insertLeft, Outcome.ok.injEq] at h
    subst h
    exact List.Perm.refl _
  | cons p ps ih =>
    intro r h
    simp only [insertLeft] at h
    cases hl : less x p with
    | ok b =>
      cases b with
      | true =>
        rw [hl] at h
        cases hi : insertLeft less x ps with
        | ok r2 =>
          rw [hi] at h
          simp only [Outcome.ok.injEq] at h
          subst h
          exact ((ih r2 hi).cons p).trans (List.Perm.swap x p ps)
        | panic => rw [hi] at h; simp at h
        | unmodelled => rw [hi] at h; simp at h
      | false =>
        rw [hl] at h
        simp only [Outcome.ok.injEq] at h
        subst h
        exact List.Perm.refl _
    | panic => rw [hl] at h; simp at h
    | unmodelled => rw [hl] at h; simp at h

theorem insertionLoop_perm (less : String → String → Outcome Bool) :
    ∀ (rest done out : List String), insertionLoop less rest done = .ok out →
      out.Perm (rest ++ done) := by
  intro rest
  induction rest with
  | nil =>
    intro done out h
    simp only [insertionLoop, Outcome.ok.injEq] at h
    subst h
    simp
  | cons x rest ih =>
    intro done out h
    simp only [insertionLoop] at h
    cases hi : insertLeft less x done with
    | ok done2 =>
      rw [hi] at h
      have h1 := ih done2 out h
      have h2 := insertLeft_perm less x done done2 hi
      refine h1.trans ?_
      refine (List.Perm.append_left rest h2).trans ?_
      simp
    | panic => rw [hi] at h; simp at h
    | unmodelled => rw [hi] at h; simp at h

/-- Insertion sort only rearranges, whatever the comparator does. -/
theorem insertionSort_permutes : SortPermutes insertionSort := by
  intro less data out h
  have := insertionLoop_perm less data [] out h
  simpa using this

/-- The model of `sort.Sort` on short slices only rearranges. -/
theorem sortSort_permutes : SortPermutes sortSort := by
  intro less data out h
  unfold sortSort at h
  split_ifs at h
  exact insertionSort_permutes less data out h

theorem insertLeft_shape (less : String → String → Outcome Bool) (x : String) :
    ∀ (done : List String), (∀ y ∈ done, ∃ b, less x y = .ok b) →
      ∃ pre post, done = pre ++ post ∧ insertLeft less x done = .ok (pre ++ x :: post) ∧
        (∀ y ∈ pre, less x y = .ok true) ∧ (∀ p ∈ post.head?, less x p = .ok false) := by
  intro done
  induction done with
  | nil => intro _; exact ⟨[], [], rfl, rfl, by simp, by simp⟩
  | cons p ps ih =>
    intro h
    obtain ⟨b, hb⟩ := h p (List.mem_cons_self _ _)
    cases b with
    | false =>
      refine ⟨[], p :: ps, rfl, by simp [insertLeft, hb], by simp, ?_⟩
      intro q hq
      simp only [List.head?_cons, Option.mem_def, Option.some.injEq] at hq
      rw [← hq]; exact hb
    | true =>
      obtain ⟨pre, post, hd, hi, hpre, hpost⟩ := ih (fun y hy => h y (List.mem_cons_of_mem _ hy))
      refine ⟨p :: pre, post, by simp [hd], by simp [insertLeft, hb, hi], ?_, hpost⟩
      intro y hy
      rcases List.mem_cons.mp hy with e | e
      · rw [e]; exact hb
      · exact hpre y e

theorem insertLeft_chain (less : String → String → Outcome Bool) (x : String)
    (done : List String) (htot : ∀ y ∈ done, ∃ b, less x y = .ok b)
    (hasym : ∀ y ∈ done, less x y = .ok true → less y x = .ok false)
    (hchain : List.Chain' (fun a c => less a c = .ok false) done) :
    ∃ r, insertLeft less x done = .ok r ∧
      List.Chain' (fun a c => less a c = .ok false) r := by
  obtain ⟨pre, post, hd, hi, hpre, hpost⟩ := insertLeft_shape less x done htot
  refine ⟨pre ++ x :: post, hi, ?_⟩
  rw [hd, List.chain'_append] at hchain
  obtain ⟨hc1, hc2, _⟩ := hchain
  rw [List.chain'_append]
  refine ⟨hc1, ?_, ?_⟩
  · rw [List.chain'_cons']
    exact ⟨hpost, hc2⟩
  · intro a ha c hc
    simp only [List.head?_cons, Option.mem_def, Option.some.injEq] at hc
    rw [← hc]
    have hin : a ∈ pre := List.mem_of_mem_getLast? ha
    exact hasym a (by rw [hd]; exact List.mem_append_left _ hin) (hpre a hin)

theorem insertionLoop_sorted (less : String → String → Outcome Bool) (data : List String)
    (htot : ∀ x ∈ data, ∀ y ∈ data, ∃ b, less x y = .ok b)
    (hasym : ∀ x ∈ data, ∀ y ∈ data, less x y = .ok true → less y x = .ok false) :
    ∀ (rest done : List String), (∀ y ∈ rest, y ∈ data) → (∀ y ∈ done, y ∈ data) →
      List.Chain' (fun a c => less a c = .ok false) done →
      ∃ out, insertionLoop less rest done = .ok out ∧
        List.Chain' (fun a c => less c a = .ok false) out := by
  intro rest
  induction rest with
  | nil =>
    intro done _ _ hchain
    refine ⟨done.reverse, rfl, ?_⟩
    rw [List.chain'_reverse]
    exact hchain
  | cons x rest ih =>
    intro done hrest hdone hchain
    have hx : x ∈ data := hrest x (List.mem_cons_self _ _)
    obtain ⟨r, hr, hrc⟩ := insertLeft_chain less x done
      (fun y hy => htot x hx y (hdone y hy))
      (fun y hy => hasym x hx y (hdone y hy)) hchain
    have hrm : ∀ y ∈ r, y ∈ data := by
      intro y hy
      have := (insertLeft_perm less x done r hr).mem_iff.mp hy
      rcases List.mem_cons.mp this with e | e
      · rw [e]; exact hx
      · exact hdone y e
    obtain ⟨out, ho, hoc⟩ := ih r (fun y hy => hrest y (List.mem_cons_of_mem _ hy)) hrm hrc
    exact ⟨out, by simp [insertionLoop, hr, ho], hoc⟩

/-- Insertion sort meets the contract of `sort.Sort`. -/
theorem insertionSort_contract : SortContract insertionSort := by
  intro less data htot hirr htrans _
  have hasym : ∀ x ∈ data, ∀ y ∈ data, less x y = .ok true → less y x = .ok false := by
    intro x hx y hy hxy
    obtain ⟨b, hb⟩ := htot y hy x hx
    cases b with
    | false => exact hb
    | true =>
      have := htrans x hx y hy x hx hxy hb
      rw [hirr x hx] at this
      simp at this
  obtain ⟨out, ho, hoc⟩ := insertionLoop_sorted less data htot hasym data []
    (fun y hy => hy) (by simp) (by simp)
  exact ⟨out, ho, insertionSort_permutes less data out ho, hoc⟩

/-- The filter loop over a library keeps the candidates that pass the test, in
order. -/
theorem filterWith_eq_filter (lib : GoLib) (re : lib.Re) (xs : List String) :
    filterWith lib re xs = xs.filter (matchesWith lib re) := by
  induction xs with
  | nil => rfl
  | cons x rest ih =>
    by_cases h : lib.findString re x = "" <;>
      simp [filterWith, matchesWith, List.filter_cons, h, ih]

/-- C1, amended: for every implementation of the regular expressions, every
assembly name whose two patterns it compiles and every list of globbed
candidates, `exportApk` returns the first candidate of stage 1 (assembly
name, anything, `signed.apk`, case ignored) if there is one, else the first
candidate of stage 2 (assembly name and `.apk`), else the first glob
candidate, and the empty path for an empty glob; the error is nil. -/
theorem exportApk_fallback_chain (lib : GoLib) (apks : List String) (assemblyName : String)
    (signedRe plainRe : lib.Re)
    (h1 : lib.compile ("(?i)" ++ assemblyName ++ ".*signed.apk") = .ok signedRe)
    (h2 : lib.compile (assemblyName ++ ".apk") = .ok plainRe) :
    exportApkWith lib (.ok apks) assemblyName =
      .ok (apkChainWith lib signedRe plainRe apks, none) := by
  unfold exportApkWith mustCompileWith apkChainWith
  simp only [h1, h2, filterWith_eq_filter]
  cases hs : apks.find? (matchesWith lib signedRe) with
  | some x =>
    have hne : ¬ (apks.filter (matchesWith lib signedRe)).length = 0 := by
      rw [filter_length_zero_iff, hs]
      simp
    simp [hne, firstOrEmpty_filter, hs]
  | none =>
    have he : (apks.filter (matchesWith lib signedRe)).length = 0 := by
      rw [filter_length_zero_iff, hs]
    have hnil : apks.filter (matchesWith lib signedRe) = [] :=
      List.length_eq_zero.mp he
    simp only [he, if_true, hnil, List.nil_append]
    cases hp : apks.find? (matchesWith lib plainRe) with
    | some y =>
      have hne : ¬ (apks.filter (matchesWith lib plainRe)).length = 0 := by
        rw [filter_length_zero_iff, hp]
        simp
      simp [hne, firstOrEmpty_filter, hp]
    | none =>
      have he2 : (apks.filter (matchesWith lib plainRe)).length = 0 := by
        rw [filter_length_zero_iff, hp]
      simp only [he2, if_true]
      cases apks <;> rfl

/-- Witness of C1 and its example, with the regular expressions of this file:
with the candidates `Foo-signed.apk` and `Foo.apk`, in glob order, and the
assembly name `Foo`, the signed one is returned. -/
theorem exportApk_fallback_chain_witness :
    exportApkWith modelLib (.ok ["out/Foo-signed.apk", "out/Foo.apk"]) "Foo" =
      .ok ("out/Foo-signed.apk", none) :=
  (exportApk_fallback_chain modelLib ["out/Foo-signed.apk", "out/Foo.apk"] "Foo"
    _ _ rfl rfl).trans (by decide)

/-- The method `ByArchiveDate.Less` returns true at line 211 when the directory
of its first path carries the later date; the file names are not read. -/
theorem archiveLess_later_directory (p q : String) (tp tq : GoTime)
    (hp : timeParse layoutDate (filepathBase (filepathDir p)) = some tp)
    (hq : timeParse layoutDate (filepathBase (filepathDir q)) = some tq)
    (hlater : tp.after tq = true) :
    archiveLess p q = .ok true := by
  simp [archiveLess, archiveDirDates, hp, hq, hlater]

/-- C3 at inputs that refute it: listed with the later directory first, the
sort with `ByArchiveDate` puts the archive of the earlier directory 2016-10-07
first when the file names carry dates that run the other way, and panics on
an empty slice when the file names carry no date. -/
theorem archiveSort_later_directory_listed_first :
    sortSort archiveLess
      ["A/2017-10-09/App 10-07-16 3.41 PM.xcarchive",
       "A/2016-10-07/App 10-09-17 3.41 PM.xcarchive"] =
      .ok ["A/2016-10-07/App 10-09-17 3.41 PM.xcarchive",
           "A/2017-10-09/App 10-07-16 3.41 PM.xcarchive"] ∧
    sortSort archiveLess ["A/2017-10-09/App.xcarchive", "A/2016-10-07/App.xcarchive"] =
      .panic := by
  constructor <;> decide

/-- C3, amended: for two candidates listed as `filepath.Glob` lists them, the
one in the earlier-dated directory first, the sort with `ByArchiveDate` puts
the candidate of the later-dated directory first, whatever the two file names
contain; and `exportLatestXCArchive` returns it, over every implementation of
the regular expressions that compiles the filter pattern and every `sort.Sort`
that runs insertion sort on two elements, when the filter keeps both
candidates or neither. -/
theorem exportLatestXCArchive_later_directory (lib : GoLib)
    (pattern assemblyName p0 p1 : String) (re : lib.Re) (t0 t1 : GoTime)
    (hsort : ∀ (less : String → String → Outcome Bool) (a b : String),
      lib.sort less [a, b] = insertionSort less [a, b])
    (hre : lib.compile (".*/" ++ assemblyName ++ ".xcarchive") = .ok re)
    (hboth : matchesWith lib re p0 = matchesWith lib re p1)
    (h0 : timeParse layoutDate (filepathBase (filepathDir p0)) = some t0)
    (h1 : timeParse layoutDate (filepathBase (filepathDir p1)) = some t1)
    (hlater : t1.after t0 = true) :
    sortSort archiveLess [p0, p1] = .ok [p1, p0] ∧
    exportLatestXCArchiveWith lib pattern (.ok [p0, p1]) assemblyName = .ok (p1, none) := by
  have hless : archiveLess p1 p0 = .ok true :=
    archiveLess_later_directory p1 p0 t1 t0 h1 h0 hlater
  have hins : insertionSort archiveLess [p0, p1] = .ok [p1, p0] := by
    simp [insertionSort, insertionLoop, insertLeft, hless]
  refine ⟨by simp [sortSort, hins], ?_⟩
  unfold exportLatestXCArchiveWith exportLatestWith mustCompileWith
  simp only [hre, filterWith_eq_filter]
  cases hm : matchesWith lib re p1 with
  | true =>
    have hm0 : matchesWith lib re p0 = true := by rw [hboth, hm]
    simp [List.filter_cons, hm, hm0, hsort, hins, firstOrEmpty]
  | false =>
    have hm0 : matchesWith lib re p0 = false := by rw [hboth, hm]
    simp [List.filter_cons, hm, hm0, hsort, hins, firstOrEmpty]

/-- Witness of C3 and its example, with the regular expressions of this file:
the directories 2016-10-07 and 2017-10-09 in glob order, with file names that
carry no date; the archive of 2017-10-09 is returned. -/
theorem exportLatestXCArchive_later_directory_witness :
    sortSort archiveLess ["A/2016-10-07/App.xcarchive", "A/2017-10-09/App.xcarchive"] =
      .ok ["A/2017-10-09/App.xcarchive", "A/2016-10-07/App.xcarchive"] ∧
    exportLatestXCArchiveWith modelLib "A/*/*.xcarchive"
      (.ok ["A/2016-10-07/App.xcarchive", "A/2017-10-09/App.xcarchive"]) "App" =
      .ok ("A/2017-10-09/App.xcarchive", none) :=
  exportLatestXCArchive_later_directory modelLib "A/*/*.xcarchive" "App"
    "A/2016-10-07/App.xcarchive" "A/2017-10-09/App.xcarchive" _
    ⟨2016, 10, 7, 0, 0, 0, 0⟩ ⟨2017, 10, 9, 0, 0, 0, 0⟩
    (fun _ _ _ => rfl) rfl (by decide) (by decide) (by decide) (by decide)

theorem nameFilteredWith_subset (lib : GoLib) (re : lib.Re) (found : List String) :
    ∀ p ∈ nameFilteredWith lib re found, p ∈ found := by
  intro p hp
  unfold nameFilteredWith at hp
  split_ifs at hp
  · exact hp
  · exact List.mem_of_mem_filter hp

theorem nameFilteredWith_ne_nil (lib : GoLib) (re : lib.Re) (found : List String)
    (h : found ≠ []) : nameFilteredWith lib re found ≠ [] := by
  unfold nameFilteredWith
  split_ifs with hf
  · exact h
  · intro hnil
    exact hf (by rw [hnil]; rfl)

theorem nameFilteredWith_eq (lib : GoLib) (re : lib.Re) (found : List String) :
    (if (filterWith lib re found).length = 0 then found else filterWith lib re found) =
      nameFilteredWith lib re found := by
  rw [filterWith_eq_filter]
  rfl

theorem lexGt_trans (a b c : List Nat) (hab : a.length = b.length) (hbc : b.length = c.length)
    (h1 : lexGt a b = true) (h2 : lexGt b c = true) : lexGt a c = true := by
  cases hac : lexGt a c with
  | true => rfl
  | false =>
    have hcb : lexGt c b = false := lexGt_asymm b c h2
    have := lexGt_neg_trans a c b (hab.trans hbc) hbc.symm hac hcb
    rw [h1] at this
    cases this

/-- C4, amended: for every implementation of the regular expressions that
compiles the filter pattern, every `sort.Sort` that keeps its contract, and
every non-empty list of candidates whose parent directory names are
well-formed (`<name> YYYY-MM-DD HH-MM-SS` with a name free of line breaks
and a valid date and time, optionally a space and a decimal number below
2^63), `exportLatestIpa` returns, with a nil error, one of the name-filtered
candidates, and no name-filtered candidate has a greater (time stamp,
suffix) pair, an absent suffix counting as 0. -/
theorem exportLatestIpa_returns_maximal (lib : GoLib) (pattern assemblyName : String)
    (ipas : List String) (re : lib.Re) (info : String → IpaDir)
    (hsort : SortContract lib.sort)
    (hre : lib.compile (assemblyName ++ " .*/" ++ assemblyName ++ ".ipa") = .ok re)
    (hne : ipas ≠ [])
    (hform : ∀ p ∈ ipas,
      (info p).wellFormed = true ∧ filepathBase (filepathDir p) = (info p).text) :
    ∃ best, exportLatestIpaWith lib pattern (.ok ipas) assemblyName = .ok (best, none) ∧
      best ∈ nameFilteredWith lib re ipas ∧
      ∀ q ∈ nameFilteredWith lib re ipas, lexGt (info q).key (info best).key = false := by
  have hsub := nameFilteredWith_subset lib re ipas
  have hkey : ∀ x ∈ nameFilteredWith lib re ipas, ∀ y ∈ nameFilteredWith lib re ipas,
      ipaLess x y = .ok (lexGt (info x).key (info y).key) :=
    fun x hx y hy => ipaLess_key x y (info x) (info y) (hform x (hsub x hx))
      (hform y (hsub y hy))
  obtain ⟨out, hout, hperm, hchain⟩ := hsort ipaLess (nameFilteredWith lib re ipas)
    (fun x hx y hy => ⟨_, hkey x hx y hy⟩)
    (fun x hx => by rw [hkey x hx x hx, lexGt_irrefl])
    (fun x hx y hy z hz hxy hyz => by
      rw [hkey x hx y hy] at hxy
      rw [hkey y hy z hz] at hyz
      rw [hkey x hx z hz]
      injection hxy with hxy
      injection hyz with hyz
      exact congrArg Outcome.ok (lexGt_trans (info x).key (info y).key (info z).key rfl rfl hxy hyz))
    (fun x hx y hy z hz hxy hyz => by
      rw [hkey x hx y hy] at hxy
      rw [hkey y hy z hz] at hyz
      rw [hkey x hx z hz]
      injection hxy with hxy
      injection hyz with hyz
      exact congrArg Outcome.ok (lexGt_neg_trans (info x).key (info y).key (info z).key rfl rfl hxy hyz))
  have hlen : ¬ ipas.length = 0 := fun h => hne (List.length_eq_zero.mp h)
  have hlen2 : ¬ (nameFilteredWith lib re ipas).length = 0 :=
    fun h => nameFilteredWith_ne_nil lib re ipas hne (List.length_eq_zero.mp h)
  cases out with
  | nil =>
    exact absurd hperm.symm.eq_nil (nameFilteredWith_ne_nil lib re ipas hne)
  | cons b tl =>
    have hin : ∀ y ∈ b :: tl, y ∈ nameFilteredWith lib re ipas :=
      fun y hy => hperm.mem_iff.mp hy
    refine ⟨b, ?_, hin b (List.mem_cons_self _ _), ?_⟩
    · unfold exportLatestIpaWith exportLatestWith mustCompileWith
      simp only [hre, hlen, if_false, nameFilteredWith_eq, hlen2, hout]
      rfl
    · intro q hq
      exact chain_head_max ipaLess (fun p => (info p).key) 7 tl b (fun _ _ => rfl)
        (fun x hx y hy => hkey x (hin x hx) y (hin y hy))
        hchain q (hperm.mem_iff.mpr hq)

/-- Witness of C4 and its example, with the regular expressions of this file
and insertion sort: of the directories `App 2016-10-06 11-45-23` and
`App 2016-10-06 11-45-23 2`, in glob order, the one with the suffix is
returned. -/
theorem exportLatestIpa_returns_maximal_witness :
    (∃ best, exportLatestIpaWith insertionLib "o/*/*.ipa"
        (.ok ["o/App 2016-10-06 11-45-23/App.ipa", "o/App 2016-10-06 11-45-23 2/App.ipa"])
        "App" = .ok (best, none) ∧
      best ∈ ["o/App 2016-10-06 11-45-23/App.ipa", "o/App 2016-10-06 11-45-23 2/App.ipa"]) ∧
    exportLatestIpaWith insertionLib "o/*/*.ipa"
      (.ok ["o/App 2016-10-06 11-45-23/App.ipa", "o/App 2016-10-06 11-45-23 2/App.ipa"])
      "App" = .ok ("o/App 2016-10-06 11-45-23 2/App.ipa", none) := by
  constructor
  · obtain ⟨best, h1, h2, _⟩ := exportLatestIpa_returns_maximal insertionLib "o/*/*.ipa" "App"
      ["o/App 2016-10-06 11-45-23/App.ipa", "o/App 2016-10-06 11-45-23 2/App.ipa"] _
      (fun p => if p = "o/App 2016-10-06 11-45-23 2/App.ipa"
        then ⟨"App", 2016, 10, 6, 11, 45, 23, ['2']⟩
        else ⟨"App", 2016, 10, 6, 11, 45, 23, []⟩)
      insertionSort_contract rfl (by decide) (by decide)
    exact ⟨best, h1, nameFilteredWith_subset _ _ _ best h2⟩
  · decide

/-- A resolver without sorting that returns normally on a non-empty glob
returns one of the candidates, with a nil error. -/
theorem exportFirstWith_returns_candidate (lib : GoLib) (what pattern rePattern : String)
    (found : List String) (hne : found ≠ []) (r : Resolved)
    (h : exportFirstWith lib what pattern (.ok found) rePattern = .ok r) :
    r.2 = none ∧ r.1 ∈ found := by
  have hlen : ¬ found.length = 0 := fun e => hne (List.length_eq_zero.mp e)
  unfold exportFirstWith mustCompileWith at h
  simp only [hlen, if_false] at h
  cases hc : lib.compile rePattern with
  | error e => rw [hc] at h; cases e <;> simp at h
  | ok re =>
    rw [hc] at h
    simp only [nameFilteredWith_eq, Outcome.ok.injEq] at h
    subst h
    have := firstOrEmpty_mem _ (nameFilteredWith_ne_nil lib re found hne)
    exact ⟨this.1, nameFilteredWith_subset lib re found _ this.2⟩

/-- A sorting resolver that returns normally on a non-empty glob returns one
of the candidates, with a nil error, whatever the comparator does, as long as
the sort only rearranges. -/
theorem exportLatestWith_returns_candidate (lib : GoLib) (hsort : SortPermutes lib.sort)
    (what pattern rePattern : String) (less : String → String → Outcome Bool)
    (found : List String) (hne : found ≠ []) (r : Resolved)
    (h : exportLatestWith lib what pattern less (.ok found) rePattern = .ok r) :
    r.2 = none ∧ r.1 ∈ found := by
  have hlen : ¬ found.length = 0 := fun e => hne (List.length_eq_zero.mp e)
  unfold exportLatestWith mustCompileWith at h
  simp only [hlen, if_false] at h
  cases hc : lib.compile rePattern with
  | error e => rw [hc] at h; cases e <;> simp at h
  | ok re =>
    rw [hc] at h
    simp only [nameFilteredWith_eq] at h
    have hne2 := nameFilteredWith_ne_nil lib re found hne
    have hlen2 : ¬ (nameFilteredWith lib re found).length = 0 :=
      fun e => hne2 (List.length_eq_zero.mp e)
    simp only [hlen2, if_false] at h
    cases hs : lib.sort less (nameFilteredWith lib re found) with
    | ok sorted =>
      rw [hs] at h
      simp only [Outcome.ok.injEq] at h
      subst h
      have hperm := hsort less _ sorted hs
      have hsne : sorted ≠ [] := fun e => hne2 (by rw [e] at hperm; exact hperm.symm.eq_nil)
      have := firstOrEmpty_mem sorted hsne
      exact ⟨this.1, nameFilteredWith_subset lib re found _ (hperm.mem_iff.mp this.2)⟩
    | panic => rw [hs] at h; simp at h
    | unmodelled => rw [hs] at h; simp at h

theorem exportApkWith_returns_candidate (lib : GoLib) (assemblyName : String)
    (apks : List String) (hne : apks ≠ []) (r : Resolved)
    (h : exportApkWith lib (.ok apks) assemblyName = .ok r) :
    r.2 = none ∧ r.1 ∈ apks := by
  unfold exportApkWith mustCompileWith at h
  cases hc : lib.compile ("(?i)" ++ assemblyName ++ ".*signed.apk") with
  | error e => rw [hc] at h; cases e <;> simp at h
  | ok re =>
    rw [hc] at h
    simp only [filterWith_eq_filter] at h
    by_cases h1 : (apks.filter (matchesWith lib re)).length = 0
    · simp only [h1, if_true] at h
      cases hc2 : lib.compile (assemblyName ++ ".apk") with
      | error e => rw [hc2] at h; cases e <;> simp at h
      | ok re2 =>
        rw [hc2] at h
        simp only [List.length_eq_zero.mp h1, List.nil_append] at h
        by_cases h2 : (apks.filter (matchesWith lib re2)).length = 0
        · simp only [h2, if_true, Outcome.ok.injEq] at h
          subst h
          exact firstOrEmpty_mem apks hne
        · simp only [h2, if_false, Outcome.ok.injEq] at h
          subst h
          have := firstOrEmpty_mem (apks.filter (matchesWith lib re2))
            (fun e => h2 (by rw [e]; rfl))
          exact ⟨this.1, List.mem_of_mem_filter this.2⟩
    · simp only [h1, if_false, Outcome.ok.injEq] at h
      subst h
      have := firstOrEmpty_mem (apks.filter (matchesWith lib re))
        (fun e => h1 (by rw [e]; rfl))
      exact ⟨this.1, List.mem_of_mem_filter this.2⟩

/-- C14: for each of the six resolvers, over every implementation of the
regular expressions and every `sort.Sort` that only rearranges its slice,
when the glob yields at least one candidate (glob candidates are non-empty
paths) and the resolver returns normally, the error is nil and the returned
path is non-empty and is one of the globbed candidates, whether or not a
candidate matches the pattern of the assembly name. -/
theorem resolvers_return_a_candidate (lib : GoLib) (hsort : SortPermutes lib.sort)
    (pattern assemblyName : String)
    (found : List String) (hne : found ≠ []) (hpaths : ∀ c ∈ found, c ≠ "") (r : Resolved)
    (h : exportApkWith lib (.ok found) assemblyName = .ok r ∨
         exportLatestXCArchiveWith lib pattern (.ok found) assemblyName = .ok r ∨
         exportLatestIpaWith lib pattern (.ok found) assemblyName = .ok r ∨
         exportAppDSYMWith lib pattern (.ok found) assemblyName = .ok r ∨
         exportPKGWith lib pattern (.ok found) assemblyName = .ok r ∨
         exportAppWith lib pattern (.ok found) assemblyName = .ok r) :
    r.2 = none ∧ r.1 ≠ "" ∧ r.1 ∈ found := by
  have key : r.2 = none ∧ r.1 ∈ found := by
    rcases h with h | h | h | h | h | h
    · exact exportApkWith_returns_candidate lib assemblyName found hne r h
    · exact exportLatestWith_returns_candidate lib hsort _ _ _ _ found hne r h
    · exact exportLatestWith_returns_candidate lib hsort _ _ _ _ found hne r h
    · exact exportFirstWith_returns_candidate lib _ _ _ found hne r h
    · exact exportFirstWith_returns_candidate lib _ _ _ found hne r h
    · exact exportFirstWith_returns_candidate lib _ _ _ found hne r h
  exact ⟨key.1, hpaths _ key.2, key.2⟩

/-- Witness of C14, with the regular expressions of this file: no candidate
matches the assembly name `Other`, and `exportPKG` still returns the first
globbed candidate. -/
theorem resolvers_return_a_candidate_witness :
    exportPKGWith modelLib "out/*.pkg" (.ok ["out/App-1.0.pkg", "out/Tool.pkg"]) "Other" =
      .ok ("out/App-1.0.pkg", none) ∧
    ((none : Option String) = none ∧ "out/App-1.0.pkg" ≠ "" ∧
      "out/App-1.0.pkg" ∈ ["out/App-1.0.pkg", "out/Tool.pkg"]) :=
  ⟨by decide,
   resolvers_return_a_candidate modelLib sortSort_permutes "out/*.pkg" "Other"
     ["out/App-1.0.pkg", "out/Tool.pkg"]
     (by decide) (by decide) ("out/App-1.0.pkg", none)
     (Or.inr (Or.inr (Or.inr (Or.inr (Or.inl (by decide))))))⟩

end XamarinArchive
